import Mathlib

/-!
The horsepower → mpg pipeline of `script.js` (TensorFlow2D)

A shallow embedding of `getData`, `createModel`, `convertToTensor`, `trainModel`
and `testModel`.

A tensor entry is a `TVal`: a rational number or one of the three IEEE specials
`+Infinity`, `-Infinity`, `NaN`. Every arithmetic operation computes the exact
result and writes it back through a rounding function. The program's
arithmetic is `Arith.ieee`: tensor entries are binary32 numbers (round to
nearest, ties to even, overflow to an infinity) and JavaScript numbers are
binary64. `Arith.exact` rounds nothing and is used where a statement is about
exact arithmetic. The sign of zero is not modelled.
-/

namespace TensorFlow2D

/-! ## Values -/

/-- A JSON field as JavaScript reads it: `undefined` when the key is absent. -/
inductive JsVal where
  | undefined
  | null
  | number (q : ℚ)
  | string (s : String)
  | bool (b : Bool)
  deriving DecidableEq

/-- JavaScript `v != null` (loose inequality): false exactly for `null` and
`undefined`. -/
def JsVal.neNull : JsVal → Bool
  | .undefined => false
  | .null => false
  | _ => true

/-- An entry of a tensor or a scalar tensor. -/
inductive TVal where
  | num (q : ℚ)
  | posInf
  | negInf
  | nan
  deriving DecidableEq

namespace TVal

/-- Sign-directed infinity: `+Infinity` for a positive sign, `-Infinity` for a
negative one, `NaN` for zero. -/
def infOfSign (s : ℚ) : TVal :=
  if s = 0 then nan else if 0 < s then posInf else negInf

/-- Negation. -/
def neg : TVal → TVal
  | num a => num (-a)
  | posInf => negInf
  | negInf => posInf
  | nan => nan

/-- Addition (`a.add(b)`): the exact sum of two numbers goes through the
rounding `fl`. -/
def add (fl : ℚ → TVal) : TVal → TVal → TVal
  | nan, _ => nan
  | _, nan => nan
  | num a, num b => fl (a + b)
  | num _, posInf => posInf
  | num _, negInf => negInf
  | posInf, num _ => posInf
  | negInf, num _ => negInf
  | posInf, posInf => posInf
  | negInf, negInf => negInf
  | posInf, negInf => nan
  | negInf, posInf => nan

/-- Subtraction (`a.sub(b)`). -/
def sub (fl : ℚ → TVal) (a b : TVal) : TVal := add fl a (neg b)

/-- Multiplication (`a.mul(b)`). -/
def mul (fl : ℚ → TVal) : TVal → TVal → TVal
  | nan, _ => nan
  | _, nan => nan
  | num a, num b => fl (a * b)
  | num a, posInf => infOfSign a
  | num a, negInf => infOfSign (-a)
  | posInf, num b => infOfSign b
  | negInf, num b => infOfSign (-b)
  | posInf, posInf => posInf
  | negInf, negInf => posInf
  | posInf, negInf => negInf
  | negInf, posInf => negInf

/-- Division (`a.div(b)`): a number divided by zero is `NaN` when it is zero
itself and an infinity of its sign otherwise. -/
def div (fl : ℚ → TVal) : TVal → TVal → TVal
  | nan, _ => nan
  | _, nan => nan
  | num a, num b => if b = 0 then infOfSign a else fl (a / b)
  | num _, posInf => num 0
  | num _, negInf => num 0
  | posInf, num b => if 0 ≤ b then posInf else negInf
  | negInf, num b => if 0 ≤ b then negInf else posInf
  | posInf, posInf => nan
  | negInf, negInf => nan
  | posInf, negInf => nan
  | negInf, posInf => nan

/-- Writing a value into an array of another number format. -/
def cast (fl : ℚ → TVal) : TVal → TVal
  | num a => fl a
  | t => t

/-- The larger of two entries; `NaN` wins. -/
def maxv : TVal → TVal → TVal
  | nan, _ => nan
  | _, nan => nan
  | posInf, _ => posInf
  | _, posInf => posInf
  | negInf, b => b
  | a, negInf => a
  | num a, num b => num (max a b)

/-- The smaller of two entries; `NaN` wins. -/
def minv : TVal → TVal → TVal
  | nan, _ => nan
  | _, nan => nan
  | negInf, _ => negInf
  | _, negInf => negInf
  | posInf, b => b
  | a, posInf => a
  | num a, num b => num (min a b)

/-- JavaScript `a < b` on numbers: false as soon as one side is `NaN`. -/
def lt : TVal → TVal → Prop
  | num a, num b => a < b
  | negInf, num _ => True
  | negInf, posInf => True
  | num _, posInf => True
  | _, _ => False

instance (a b : TVal) : Decidable (lt a b) := by
  cases a <;> cases b <;> unfold lt <;> infer_instance

/-- JavaScript `a <= b` on numbers: false as soon as one side is `NaN`. -/
def le : TVal → TVal → Prop
  | num a, num b => a ≤ b
  | negInf, num _ => True
  | negInf, posInf => True
  | negInf, negInf => True
  | num _, posInf => True
  | posInf, posInf => True
  | _, _ => False

instance (a b : TVal) : Decidable (le a b) := by
  cases a <;> cases b <;> unfold le <;> infer_instance

/-- Every entry of the list is below the next one (`a < b` as in JavaScript). -/
def increasing : List TVal → Bool
  | a :: b :: rest => decide (lt a b) && increasing (b :: rest)
  | _ => true

/-- The entry is a rational number in the closed interval `[0, 1]`. -/
def inUnit : TVal → Prop
  | num q => 0 ≤ q ∧ q ≤ 1
  | _ => False

instance (a : TVal) : Decidable (inUnit a) := by
  cases a <;> unfold inUnit <;> infer_instance

end TVal

/-- A rank-1 or `[N, 1]` tensor, as the flat list of its entries. -/
abbrev Tensor := List TVal

/-! ## Binary floating point -/

/-- Number of binary digits, by halving; `fuel` bounds the number of
halvings. -/
def bitLenAux : ℕ → ℕ → ℕ
  | 0, _ => 0
  | fuel + 1, n => if n = 0 then 0 else bitLenAux fuel (n / 2) + 1

/-- Number of binary digits of `n`. -/
def bitLen (n : ℕ) : ℕ := bitLenAux n n

/-- The binary exponent of a positive rational: the `e` with
`2^e ≤ q < 2^(e+1)`. -/
def ilog2 (q : ℚ) : ℤ :=
  let e : ℤ := (bitLen q.num.toNat : ℤ) - (bitLen q.den : ℤ)
  if (2 : ℚ) ^ e ≤ q then e else e - 1

/-- Round to the nearest integer, a tie going to the even neighbour. -/
def roundHalfEven (x : ℚ) : ℤ :=
  if x - ⌊x⌋ < 1 / 2 then ⌊x⌋
  else if 1 / 2 < x - ⌊x⌋ then ⌊x⌋ + 1
  else if ⌊x⌋ % 2 = 0 then ⌊x⌋ else ⌊x⌋ + 1

/-- A binary floating-point format: digits of precision and the least and
greatest exponent of a normal number. -/
structure Format where
  prec : ℕ
  emin : ℤ
  emax : ℤ

namespace Format

/-- Exponent of the unit in the last place at the magnitude `q > 0`; below
`2^emin` the spacing stays that of the least binade (subnormal numbers). -/
def ulpExp (f : Format) (q : ℚ) : ℤ := max (ilog2 q) f.emin - ((f.prec : ℤ) - 1)

/-- The magnitude `q ≥ 0` rounded to the nearest multiple of its unit in the
last place, ties to even; the exponent is not bounded above. -/
def roundMag (f : Format) (q : ℚ) : ℚ :=
  (roundHalfEven (q / 2 ^ f.ulpExp q) : ℚ) * 2 ^ f.ulpExp q

/-- Round to nearest, ties to even, with overflow to an infinity. -/
def round (f : Format) (q : ℚ) : TVal :=
  if 0 ≤ q then
    (if 2 ^ (f.emax + 1) ≤ f.roundMag q then TVal.posInf else TVal.num (f.roundMag q))
  else
    (if 2 ^ (f.emax + 1) ≤ f.roundMag (-q) then TVal.negInf
     else TVal.num (-(f.roundMag (-q))))

/-- The magnitude `q` is a whole multiple of its unit in the last place. -/
def OnGrid (f : Format) (q : ℚ) : Prop := ∃ m : ℤ, q = (m : ℚ) * 2 ^ f.ulpExp q

/-- The number `r` is a finite value of the format. -/
def Representable (f : Format) (r : ℚ) : Prop := f.OnGrid |r| ∧ |r| < 2 ^ (f.emax + 1)

end Format

/-- The format of a `float32` tensor entry. -/
def binary32 : Format := { prec := 24, emin := -126, emax := 127 }

/-- The format of a JavaScript number. -/
def binary64 : Format := { prec := 53, emin := -1022, emax := 1023 }

/-- The two roundings of the program: `store` when a number is written into a
`float32` tensor (also the result of every tensor operation), `js` for the
result of an operation on JavaScript numbers. -/
structure Arith where
  store : ℚ → TVal
  js : ℚ → TVal

/-- Exact arithmetic: nothing is rounded. -/
def Arith.exact : Arith := { store := TVal.num, js := TVal.num }

/-- The arithmetic of the program: binary32 tensors, binary64 JavaScript
numbers, every operation rounded to nearest as IEEE 754 prescribes and as the
CPU backend of TensorFlow.js computes it. -/
def Arith.ieee : Arith := { store := binary32.round, js := binary64.round }

/-- What the theorems need of the roundings: they are monotone, keep `0` and
`1`, keep a value that is already stored, and the difference of two different
stored values does not round to zero. -/
structure Arith.Lawful (ar : Arith) : Prop where
  store_mono : ∀ a b : ℚ, a ≤ b → (ar.store a).le (ar.store b)
  store_zero : ar.store 0 = TVal.num 0
  store_one : ar.store 1 = TVal.num 1
  store_idem : ∀ q r : ℚ, ar.store q = TVal.num r → ar.store r = TVal.num r
  store_sub_pos : ∀ a b : ℚ, ar.store a = TVal.num a → ar.store b = TVal.num b → a < b →
    ar.store (b - a) = TVal.posInf ∨ ∃ d : ℚ, 0 < d ∧ ar.store (b - a) = TVal.num d
  js_mono : ∀ a b : ℚ, a ≤ b → (ar.js a).le (ar.js b)
  js_fix : ∀ q r : ℚ, ar.store q = TVal.num r → ar.js r = TVal.num r

/-! ## `getData` (lines 5–15) -/

/-- A raw record of `carsData.json`, reduced to the two fields that are read. -/
structure Car where
  Miles_per_Gallon : JsVal
  Horsepower : JsVal
  deriving DecidableEq

/-- The object built by the `map` callback of `getData`. -/
structure CleanedCar where
  mpg : JsVal
  horsepower : JsVal
  deriving DecidableEq

/-- The cleaning step of `getData`: `carsData.map(...).filter(...)`. -/
def getData (carsData : List Car) : List CleanedCar :=
  (carsData.map (fun car =>
      ({ mpg := car.Miles_per_Gallon, horsepower := car.Horsepower } : CleanedCar))).filter
    (fun car => car.mpg.neNull && car.horsepower.neNull)

/-- A field is present and non-null. -/
def JsVal.Present (v : JsVal) : Prop := v ≠ JsVal.undefined ∧ v ≠ JsVal.null

instance (v : JsVal) : Decidable v.Present := by
  unfold JsVal.Present; infer_instance

/-- Both tracked fields of a raw record are present and non-null. -/
def Car.Complete (c : Car) : Prop := c.Horsepower.Present ∧ c.Miles_per_Gallon.Present

instance (c : Car) : Decidable c.Complete := by
  unfold Car.Complete; infer_instance

/-- The projection of a raw record to `{mpg, horsepower}`. -/
def Car.project (c : Car) : CleanedCar :=
  { mpg := c.Miles_per_Gallon, horsepower := c.Horsepower }

/-! ## Tensor operations used by the pipeline -/

/-- A cleaned sample whose fields are numbers, as `convertToTensor` reads it. -/
structure Sample where
  mpg : ℚ
  horsepower : ℚ
  deriving DecidableEq

/-- `tf.tensor2d(values, [values.length, 1])` on an array of numbers: every
number is stored as a `float32`. -/
def tensor2d (ar : Arith) (values : List ℚ) : Tensor := values.map ar.store

/-- What the numeric backend returns when it reduces a tensor with no entries
(the value differs between TensorFlow.js backends, so it is a parameter). -/
structure Backend where
  emptyMax : TVal
  emptyMin : TVal

/-- `t.max()`: the greatest entry, as a scalar. -/
def tensorMax (be : Backend) : Tensor → TVal
  | [] => be.emptyMax
  | x :: xs => xs.foldl TVal.maxv x

/-- `t.min()`: the least entry, as a scalar. -/
def tensorMin (be : Backend) : Tensor → TVal
  | [] => be.emptyMin
  | x :: xs => xs.foldl TVal.minv x

/-- `t.sub(s)` with the scalar `s` broadcast. -/
def tensorSub (ar : Arith) (t : Tensor) (s : TVal) : Tensor := t.map (fun v => v.sub ar.store s)

/-- `t.div(s)` with the scalar `s` broadcast. -/
def tensorDiv (ar : Arith) (t : Tensor) (s : TVal) : Tensor := t.map (fun v => v.div ar.store s)

/-- `t.mul(s)` with the scalar `s` broadcast. -/
def tensorMul (ar : Arith) (t : Tensor) (s : TVal) : Tensor := t.map (fun v => v.mul ar.store s)

/-- `t.add(s)` with the scalar `s` broadcast. -/
def tensorAdd (ar : Arith) (t : Tensor) (s : TVal) : Tensor := t.map (fun v => v.add ar.store s)

/-- Lines 51–52: `t.sub(min).div(max.sub(min))`. -/
def normalise (ar : Arith) (t : Tensor) (mn mx : TVal) : Tensor :=
  tensorDiv ar (tensorSub ar t mn) (mx.sub ar.store mn)

/-- Lines 108–114: `t.mul(max.sub(min)).add(min)`. -/
def unNormalise (ar : Arith) (t : Tensor) (mn mx : TVal) : Tensor :=
  tensorAdd ar (tensorMul ar t (mx.sub ar.store mn)) mn

/-! ## The shuffle -/

/-- The outcomes of the random source during one shuffle: when `c + 1` elements
are still to be placed, an index among them. -/
abbrev RandomSource := (c : Nat) → Fin (c + 1)

/-- Exchange the entries at positions `i` and `j`. -/
def swap {α : Type} (a : List α) (i j : Nat) : List α :=
  match a[i]?, a[j]? with
  | some x, some y => (a.set i y).set j x
  | _, _ => a

/-- The loop of the shuffle with `counter` elements still to be placed. -/
def shuffleLoop {α : Type} (rnd : RandomSource) : Nat → List α → List α
  | 0, a => a
  | c + 1, a => shuffleLoop rnd c (swap a c (rnd c).val)

/-- Modelled from the spec: `tf.util.shuffle` belongs to TensorFlow.js and is
not part of the source file; the spec describes it as an in-place uniform
Fisher–Yates shuffle. Counting down from the length, a random index below the
counter is drawn and the entry there is exchanged with the last entry not yet
placed. -/
def shuffle {α : Type} (rnd : RandomSource) (a : List α) : List α :=
  shuffleLoop rnd a.length a

/-! ## `convertToTensor` (lines 30–67) -/

/-- The object returned by `convertToTensor`. -/
structure TensorData where
  inputs : Tensor
  labels : Tensor
  inputMax : TVal
  inputMin : TVal
  labelMax : TVal
  labelMin : TVal
  deriving DecidableEq

/-- The body of `convertToTensor`: the first component is `data` as the
in-place shuffle leaves it, the second the returned object. -/
def convertToTensor (ar : Arith) (be : Backend) (rnd : RandomSource) (data : List Sample) :
    List Sample × TensorData :=
  let data := shuffle rnd data
  let inputs := data.map (fun d => d.horsepower)
  let labels := data.map (fun d => d.mpg)
  let inputTensor := tensor2d ar inputs
  let labelTensor := tensor2d ar labels
  let inputMax := tensorMax be inputTensor
  let inputMin := tensorMin be inputTensor
  let labelMax := tensorMax be labelTensor
  let labelMin := tensorMin be labelTensor
  let normalisedInputs := normalise ar inputTensor inputMin inputMax
  let normalisedLabels := normalise ar labelTensor labelMin labelMax
  (data,
   { inputs := normalisedInputs
     labels := normalisedLabels
     inputMax := inputMax
     inputMin := inputMin
     labelMax := labelMax
     labelMin := labelMin })

/-! ## `createModel` (lines 17–28) -/

/-- A dense layer with one input, one unit, a bias and no activation
(`tf.layers.dense({units: 1, useBias: true})`). -/
structure Dense where
  kernel : TVal
  bias : TVal
  deriving DecidableEq

/-- The layer applied to one entry: `x * kernel + bias`, the product and the sum
each a `float32`. -/
def Dense.apply (ar : Arith) (l : Dense) (x : TVal) : TVal :=
  (x.mul ar.store l.kernel).add ar.store l.bias

/-- A `tf.sequential()` model: its layers in the order they were added. -/
abbrev Sequential := List Dense

/-- The four trainable numbers of the model. -/
structure Params where
  W1 : TVal
  b1 : TVal
  W2 : TVal
  b2 : TVal

/-- The model built by `createModel`, its parameters having the values `p`. -/
def createModel (p : Params) : Sequential :=
  let model : Sequential := []
  let model := model ++ [{ kernel := p.W1, bias := p.b1 }]
  let model := model ++ [{ kernel := p.W2, bias := p.b2 }]
  model

/-- The layers applied in order to one entry. -/
def Sequential.forward (ar : Arith) (m : Sequential) (x : TVal) : TVal :=
  m.foldl (fun acc l => l.apply ar acc) x

/-- `model.predict(t)`: the forward evaluation of every row. -/
def Sequential.predict (ar : Arith) (m : Sequential) (t : Tensor) : Tensor :=
  t.map (m.forward ar)

/-! ## `trainModel` (lines 69–94) -/

/-- The optimizer named in `model.compile`. -/
inductive Optimizer where
  | adam
  deriving DecidableEq

/-- The loss named in `model.compile`. -/
inductive Loss where
  | meanSquaredError
  deriving DecidableEq

/-- The options object passed to `model.fit`. -/
structure FitArgs where
  batchSize : Nat
  epochs : Nat
  shuffle : Bool
  deriving DecidableEq

/-- The calls `trainModel` makes on the model: `compile` and then `fit`. -/
structure FitCall where
  model : Sequential
  optimizer : Optimizer
  loss : Loss
  metrics : List String
  x : Tensor
  y : Tensor
  args : FitArgs
  deriving DecidableEq

/-- The body of `trainModel`: the model is compiled with Adam and mean squared
error and `fit` is called on the tensors it was given. -/
def trainModel (model : Sequential) (inputs labels : Tensor) : FitCall :=
  let batchSize := 32
  let epochs := 70
  { model := model
    optimizer := Optimizer.adam
    loss := Loss.meanSquaredError
    metrics := ["mse"]
    x := inputs
    y := labels
    args := { batchSize := batchSize, epochs := epochs, shuffle := true } }

/-- The contiguous batches of `batchSize` entries of a list, the last one
possibly shorter; `fuel` bounds the number of batches. -/
def batchesAux {α : Type} (batchSize : Nat) : Nat → List α → List (List α)
  | 0, _ => []
  | _, [] => []
  | fuel + 1, x :: xs =>
    (x :: xs).take batchSize :: batchesAux batchSize fuel ((x :: xs).drop batchSize)

/-- Modelled from the spec: the partition of one epoch's sample order into
contiguous batches (the loop of `model.fit` belongs to TensorFlow.js and is not
part of the source file). -/
def contiguousBatches {α : Type} (batchSize : Nat) (order : List α) : List (List α) :=
  batchesAux batchSize order.length order

/-- The sample order of each of the next `epochs` epochs, from the current
index array: with `shuffle` the array is shuffled in place before the epoch. -/
def epochOrdersFrom (shuffleFlag : Bool) (rnd : Nat → RandomSource) :
    Nat → Nat → List Nat → List (List Nat)
  | 0, _, _ => []
  | epochs + 1, epoch, indexArray =>
    let indexArray := if shuffleFlag then shuffle (rnd epoch) indexArray else indexArray
    indexArray :: epochOrdersFrom shuffleFlag rnd epochs (epoch + 1) indexArray

/-- Modelled from the spec: the Trainer's loop over epochs and contiguous
batches of the rows handed to `fit` (the loop of `model.fit` belongs to
TensorFlow.js and is not part of the source file). One point is not from the
spec, which speaks of no reshuffling: the `shuffle` option that `trainModel`
passes on line 86 is given the meaning it has in TensorFlow.js, where the row
indices are shuffled again before every epoch. The result lists, per epoch, the
batches of row indices. -/
def fitBatches (call : FitCall) (rnd : Nat → RandomSource) : List (List (List Nat)) :=
  (epochOrdersFrom call.args.shuffle rnd call.args.epochs 0 (List.range call.x.length)).map
    (contiguousBatches call.args.batchSize)

/-- The row order of epoch `e` when the rows are reshuffled before every epoch:
the shuffle of the order of the epoch before, the first epoch starting from the
order of the tensors. -/
def reshuffledOrder (rnd : Nat → RandomSource) (n : Nat) : Nat → List Nat
  | 0 => shuffle (rnd 0) (List.range n)
  | e + 1 => shuffle (rnd (e + 1)) (reshuffledOrder rnd n e)

/-- The same orders counted from an epoch `e0` whose index array is `arr`. -/
def reshuffledOrderFrom (rnd : Nat → RandomSource) (arr : List Nat) (e0 : Nat) :
    Nat → List Nat
  | 0 => shuffle (rnd e0) arr
  | i + 1 => shuffle (rnd (e0 + i + 1)) (reshuffledOrderFrom rnd arr e0 i)

/-! ## `testModel` (lines 96–136) -/

/-- A point of a scatter plot series. -/
structure Point where
  x : TVal
  y : TVal
  deriving DecidableEq

/-- The two series handed to `tfvis.render.scatterplot`. -/
structure Plot where
  originalPoints : List Point
  predictedPoints : List Point
  deriving DecidableEq

/-- The loop of `tf.linspace`: `values[i] = values[i - 1] + step`, the sum a
JavaScript number written into a `Float32Array`. -/
def linspaceFrom (ar : Arith) (step : TVal) : Nat → TVal → Tensor
  | 0, _ => []
  | n + 1, v => v :: linspaceFrom ar step n ((v.add ar.js step).cast ar.store)

/-- `tf.linspace(start, stop, num)` as TensorFlow.js computes it: the step
`(stop - start) / (num - 1)` is a JavaScript number, `values[0] = start`, and
every further entry adds the step to the entry before. -/
def linspace (ar : Arith) (start stop : ℚ) (num : Nat) : Tensor :=
  let step := ((TVal.num stop).sub ar.js (TVal.num start)).div ar.js
    ((TVal.num (num : ℚ)).sub ar.js (TVal.num 1))
  linspaceFrom ar step num (ar.store start)

/-- The body of `testModel`: the two series it renders. The grid and the
predictions hold 100 entries each, so pairing `xs[i]` with `preds[i]` is
`zipWith`. -/
def testModel (ar : Arith) (model : Sequential) (inputData : List Sample)
    (normalisationData : TensorData) : Plot :=
  let inputMax := normalisationData.inputMax
  let inputMin := normalisationData.inputMin
  let labelMin := normalisationData.labelMin
  let labelMax := normalisationData.labelMax
  let xsNorm := linspace ar 0 1 100
  let predictions := model.predict ar xsNorm
  let xs := unNormalise ar xsNorm inputMin inputMax
  let preds := unNormalise ar predictions labelMin labelMax
  let predictedPoints := List.zipWith (fun val p => ({ x := val, y := p } : Point)) xs preds
  let originalPoints := inputData.map
    (fun d => ({ x := TVal.num d.horsepower, y := TVal.num d.mpg } : Point))
  { originalPoints := originalPoints, predictedPoints := predictedPoints }

/-! ## Concrete inputs -/

/-- A backend whose empty reductions are the neutral elements of `max` and
`min`. -/
def neutralBackend : Backend := { emptyMax := TVal.negInf, emptyMin := TVal.posInf }

/-- The random source that always draws index `0`. -/
def firstIndex : RandomSource := fun _ => 0

/-- The random source that always draws the last index still available, so
that every exchange is of an entry with itself. -/
def lastIndex : RandomSource := fun c => Fin.last c

/-- The two complete samples of the end-to-end scenario. -/
def scenarioData : List Sample :=
  [{ mpg := 20, horsepower := 100 }, { mpg := 10, horsepower := 200 }]

/-- Two samples of equal horsepower and equal mpg. -/
def flatData : List Sample :=
  [{ mpg := 20, horsepower := 100 }, { mpg := 20, horsepower := 100 }]

/-- The model with both weights `1` and both biases `0`. -/
def unitModel : Sequential :=
  createModel { W1 := TVal.num 1, b1 := TVal.num 0, W2 := TVal.num 1, b2 := TVal.num 0 }

/-- The model with weights `2` and `3` and biases `1` and `-1`. -/
def curveModel : Sequential :=
  createModel { W1 := TVal.num 2, b1 := TVal.num 1, W2 := TVal.num 3, b2 := TVal.num (-1) }

/-- Normalisation data with the given four bounds and no tensors. -/
def boundsOnly (iMin iMax lMin lMax : ℚ) : TensorData :=
  { inputs := [], labels := [], inputMax := TVal.num iMax, inputMin := TVal.num iMin,
    labelMax := TVal.num lMax, labelMin := TVal.num lMin }

/-! ## Theorems -/

/-! ### Binary floating point: the rounding is monotone and keeps stored values -/

theorem bitLenAux_spec (fuel n : ℕ) (h : n ≤ fuel) (h0 : n ≠ 0) :
    1 ≤ bitLenAux fuel n ∧ 2 ^ (bitLenAux fuel n - 1) ≤ n ∧ n < 2 ^ bitLenAux fuel n := by
  induction fuel generalizing n with
  | zero => omega
  | succ fuel ih =>
    simp only [bitLenAux, if_neg h0]
    by_cases h2 : n / 2 = 0
    · have hn : n = 1 := by omega
      have hb : bitLenAux fuel (n / 2) = 0 := by
        rw [h2]
        cases fuel <;> simp [bitLenAux]
      rw [hb, hn]
      simp
    · obtain ⟨b1, b2, b3⟩ := ih (n / 2) (by omega) h2
      refine ⟨by omega, ?_, ?_⟩
      · have e : bitLenAux fuel (n / 2) + 1 - 1 = (bitLenAux fuel (n / 2) - 1) + 1 := by omega
        rw [e, pow_succ]
        omega
      · rw [pow_succ]
        omega

theorem bitLen_spec (n : ℕ) (h0 : n ≠ 0) :
    1 ≤ bitLen n ∧ 2 ^ (bitLen n - 1) ≤ n ∧ n < 2 ^ bitLen n :=
  bitLenAux_spec n n (Nat.le_refl n) h0

theorem ilog2_spec (q : ℚ) (hq : 0 < q) :
    (2 : ℚ) ^ ilog2 q ≤ q ∧ q < (2 : ℚ) ^ (ilog2 q + 1) := by
  have hnum : 0 < q.num := Rat.num_pos.mpr hq
  have hn0 : q.num.toNat ≠ 0 := by omega
  have hd0 : q.den ≠ 0 := q.den_nz
  obtain ⟨a1, a2, a3⟩ := bitLen_spec q.num.toNat hn0
  obtain ⟨b1, b2, b3⟩ := bitLen_spec q.den hd0
  have hqe : q = (q.num.toNat : ℚ) / (q.den : ℚ) := by
    have : ((q.num.toNat : ℤ) : ℚ) = (q.num : ℚ) := by
      rw [Int.toNat_of_nonneg hnum.le]
    rw [← Int.cast_natCast q.num.toNat, this]
    exact (Rat.num_div_den q).symm
  have hdpos : (0 : ℚ) < q.den := by exact_mod_cast Nat.pos_of_ne_zero hd0
  -- bounds on numerator and denominator as rationals
  have A2 : (2 : ℚ) ^ ((bitLen q.num.toNat : ℤ) - 1) ≤ (q.num.toNat : ℚ) := by
    have : (2 : ℚ) ^ (bitLen q.num.toNat - 1) ≤ (q.num.toNat : ℚ) := by exact_mod_cast a2
    rw [show ((bitLen q.num.toNat : ℤ) - 1) = ((bitLen q.num.toNat - 1 : ℕ) : ℤ) by omega,
      zpow_natCast]
    exact this
  have A3 : (q.num.toNat : ℚ) < (2 : ℚ) ^ (bitLen q.num.toNat : ℤ) := by
    rw [zpow_natCast]
    exact_mod_cast a3
  have B2 : (2 : ℚ) ^ ((bitLen q.den : ℤ) - 1) ≤ (q.den : ℚ) := by
    have : (2 : ℚ) ^ (bitLen q.den - 1) ≤ (q.den : ℚ) := by exact_mod_cast b2
    rw [show ((bitLen q.den : ℤ) - 1) = ((bitLen q.den - 1 : ℕ) : ℤ) by omega, zpow_natCast]
    exact this
  have B3 : (q.den : ℚ) < (2 : ℚ) ^ (bitLen q.den : ℤ) := by
    rw [zpow_natCast]
    exact_mod_cast b3
  have h2 : (0 : ℚ) < 2 := by norm_num
  -- q lies strictly between 2^(e-1) and 2^(e+1)
  have lo : (2 : ℚ) ^ ((bitLen q.num.toNat : ℤ) - (bitLen q.den : ℤ) - 1) < q := by
    refine lt_of_lt_of_eq ?_ hqe.symm
    rw [lt_div_iff₀ hdpos]
    calc (2 : ℚ) ^ ((bitLen q.num.toNat : ℤ) - (bitLen q.den : ℤ) - 1) * (q.den : ℚ)
        < (2 : ℚ) ^ ((bitLen q.num.toNat : ℤ) - (bitLen q.den : ℤ) - 1)
            * (2 : ℚ) ^ (bitLen q.den : ℤ) :=
          mul_lt_mul_of_pos_left B3 (zpow_pos h2 _)
      _ = (2 : ℚ) ^ ((bitLen q.num.toNat : ℤ) - 1) := by
          rw [← zpow_add₀ (by norm_num : (2 : ℚ) ≠ 0)]
          congr 1
          ring
      _ ≤ (q.num.toNat : ℚ) := A2
  have hi : q < (2 : ℚ) ^ ((bitLen q.num.toNat : ℤ) - (bitLen q.den : ℤ) + 1) := by
    refine lt_of_eq_of_lt hqe ?_
    rw [div_lt_iff₀ hdpos]
    calc (q.num.toNat : ℚ) < (2 : ℚ) ^ (bitLen q.num.toNat : ℤ) := A3
      _ = (2 : ℚ) ^ ((bitLen q.num.toNat : ℤ) - (bitLen q.den : ℤ) + 1)
            * (2 : ℚ) ^ ((bitLen q.den : ℤ) - 1) := by
          rw [← zpow_add₀ (by norm_num : (2 : ℚ) ≠ 0)]
          congr 1
          ring
      _ ≤ (2 : ℚ) ^ ((bitLen q.num.toNat : ℤ) - (bitLen q.den : ℤ) + 1) * (q.den : ℚ) :=
          mul_le_mul_of_nonneg_left B2 (zpow_pos h2 _).le
  unfold ilog2
  simp only
  split_ifs with hc
  · exact ⟨hc, hi⟩
  · refine ⟨lo.le, ?_⟩
    rw [sub_add_cancel]
    exact not_le.mp hc

theorem ilog2_eq_log (q : ℚ) (hq : 0 < q) : ilog2 q = Int.log 2 q := by
  obtain ⟨h1, h2⟩ := ilog2_spec q hq
  have hb : 1 < 2 := by norm_num
  apply le_antisymm
  · have := (Int.zpow_le_iff_le_log hb hq).mp (by exact_mod_cast h1)
    exact this
  · have := (Int.lt_zpow_iff_log_lt hb hq).mp (by exact_mod_cast h2)
    omega

theorem ilog2_mono {a b : ℚ} (ha : 0 < a) (hab : a ≤ b) : ilog2 a ≤ ilog2 b := by
  rw [ilog2_eq_log a ha, ilog2_eq_log b (lt_of_lt_of_le ha hab)]
  exact Int.log_mono_right ha hab

theorem roundHalfEven_intCast (k : ℤ) : roundHalfEven (k : ℚ) = k := by
  simp [roundHalfEven]

theorem floor_le_roundHalfEven (x : ℚ) : ⌊x⌋ ≤ roundHalfEven x := by
  unfold roundHalfEven
  split_ifs <;> omega

theorem roundHalfEven_le_floor_succ (x : ℚ) : roundHalfEven x ≤ ⌊x⌋ + 1 := by
  unfold roundHalfEven
  split_ifs <;> omega

theorem roundHalfEven_mono {x y : ℚ} (h : x ≤ y) : roundHalfEven x ≤ roundHalfEven y := by
  rcases lt_or_eq_of_le (Int.floor_mono h) with hlt | heq
  · calc roundHalfEven x ≤ ⌊x⌋ + 1 := roundHalfEven_le_floor_succ x
      _ ≤ ⌊y⌋ := hlt
      _ ≤ roundHalfEven y := floor_le_roundHalfEven y
  · unfold roundHalfEven
    rw [← heq]
    have hxy : x - ⌊x⌋ ≤ y - ⌊x⌋ := by linarith
    split_ifs <;> first | omega | (exfalso; linarith)

theorem two_zpow_pos (e : ℤ) : (0 : ℚ) < 2 ^ e := zpow_pos (by norm_num) e

theorem two_zpow_add (a b : ℤ) : (2 : ℚ) ^ (a + b) = 2 ^ a * 2 ^ b :=
  zpow_add₀ (by norm_num) a b

theorem two_zpow_le {a b : ℤ} (h : a ≤ b) : (2 : ℚ) ^ a ≤ 2 ^ b :=
  zpow_le_zpow_right₀ (by norm_num) h

theorem two_zpow_lt_iff {a b : ℤ} : (2 : ℚ) ^ a < 2 ^ b ↔ a < b :=
  (zpow_right_strictMono₀ (by norm_num : (1 : ℚ) < 2)).lt_iff_lt

theorem two_zpow_nat (n : ℕ) : (2 : ℚ) ^ (n : ℤ) = ((2 ^ n : ℤ) : ℚ) := by
  rw [zpow_natCast]
  push_cast
  rfl

namespace Format

variable (f : Format)

theorem roundMag_zero : f.roundMag 0 = 0 := by
  simp [roundMag, roundHalfEven]

theorem roundMag_nonneg {q : ℚ} (hq : 0 ≤ q) : 0 ≤ f.roundMag q := by
  unfold roundMag
  apply mul_nonneg _ (two_zpow_pos _).le
  have h0 : (0 : ℚ) ≤ q / 2 ^ f.ulpExp q := div_nonneg hq (two_zpow_pos _).le
  have := roundHalfEven_mono h0
  rw [show (0 : ℚ) = ((0 : ℤ) : ℚ) by simp, roundHalfEven_intCast] at this
  exact_mod_cast this

/-- A positive magnitude lies below the top of its binade. -/
theorem lt_top {q : ℚ} (hq : 0 < q) : q < 2 ^ (f.ulpExp q + (f.prec : ℤ)) := by
  have h1 := (ilog2_spec q hq).2
  refine lt_of_lt_of_le h1 (two_zpow_le ?_)
  unfold ulpExp
  have := le_max_left (ilog2 q) f.emin
  omega

/-- Above the subnormal range a magnitude lies above the bottom of its binade. -/
theorem bot_le {q : ℚ} (hq : 0 < q) (h : f.emin < max (ilog2 q) f.emin) :
    (2 : ℚ) ^ (f.ulpExp q + (f.prec : ℤ) - 1) ≤ q := by
  have h1 := (ilog2_spec q hq).1
  refine le_trans (two_zpow_le ?_) h1
  unfold ulpExp
  have : max (ilog2 q) f.emin = ilog2 q := by
    rcases max_choice (ilog2 q) f.emin with h' | h'
    · exact h'
    · omega
  omega

theorem roundMag_le_top {q : ℚ} (hq : 0 < q) :
    f.roundMag q ≤ 2 ^ (f.ulpExp q + (f.prec : ℤ)) := by
  have hu := two_zpow_pos (f.ulpExp q)
  have h1 : q / 2 ^ f.ulpExp q ≤ (((2 : ℤ) ^ f.prec : ℤ) : ℚ) := by
    rw [div_le_iff₀ hu]
    have := (f.lt_top hq).le
    rw [add_comm, two_zpow_add, two_zpow_nat] at this
    exact this
  have h2 := roundHalfEven_mono h1
  rw [roundHalfEven_intCast] at h2
  unfold roundMag
  rw [add_comm, two_zpow_add, two_zpow_nat]
  exact mul_le_mul_of_nonneg_right (by exact_mod_cast h2) hu.le

theorem bot_le_roundMag {q : ℚ} (hp : 1 ≤ f.prec) (hq : 0 < q)
    (h : f.emin < max (ilog2 q) f.emin) :
    (2 : ℚ) ^ (f.ulpExp q + (f.prec : ℤ) - 1) ≤ f.roundMag q := by
  have hu := two_zpow_pos (f.ulpExp q)
  have e : f.ulpExp q + (f.prec : ℤ) - 1 = ((f.prec - 1 : ℕ) : ℤ) + f.ulpExp q := by omega
  have h1 : (((2 : ℤ) ^ (f.prec - 1) : ℤ) : ℚ) ≤ q / 2 ^ f.ulpExp q := by
    rw [le_div_iff₀ hu]
    have := f.bot_le hq h
    rw [e, two_zpow_add, two_zpow_nat] at this
    exact this
  have h2 := roundHalfEven_mono h1
  rw [roundHalfEven_intCast] at h2
  unfold roundMag
  rw [e, two_zpow_add, two_zpow_nat]
  exact mul_le_mul_of_nonneg_right (by exact_mod_cast h2) hu.le

theorem roundMag_mono (hp : 1 ≤ f.prec) {a b : ℚ} (ha : 0 ≤ a) (hab : a ≤ b) :
    f.roundMag a ≤ f.roundMag b := by
  rcases eq_or_lt_of_le ha with h0 | hpos
  · rw [← h0, roundMag_zero]
    exact f.roundMag_nonneg (le_trans ha hab)
  · have hb : 0 < b := lt_of_lt_of_le hpos hab
    have hE : max (ilog2 a) f.emin ≤ max (ilog2 b) f.emin :=
      max_le_max (ilog2_mono hpos hab) (le_refl _)
    rcases eq_or_lt_of_le hE with heq | hlt
    · have hu : f.ulpExp a = f.ulpExp b := by
        unfold ulpExp
        rw [heq]
      unfold roundMag
      rw [hu]
      have hpos' := two_zpow_pos (f.ulpExp b)
      apply mul_le_mul_of_nonneg_right _ hpos'.le
      have : a / 2 ^ f.ulpExp b ≤ b / 2 ^ f.ulpExp b := div_le_div_of_nonneg_right hab hpos'.le
      exact_mod_cast roundHalfEven_mono this
    · have h1 := f.roundMag_le_top hpos
      have h2 := f.bot_le_roundMag hp hb (lt_of_le_of_lt (le_max_right _ _) hlt)
      refine le_trans h1 (le_trans (two_zpow_le ?_) h2)
      unfold ulpExp
      omega

end Format

namespace Format

variable (f : Format)

theorem round_of_nonneg {q : ℚ} (hq : 0 ≤ q) :
    f.round q = if 2 ^ (f.emax + 1) ≤ f.roundMag q then TVal.posInf
      else TVal.num (f.roundMag q) := by
  simp [round, hq]

theorem round_of_neg {q : ℚ} (hq : q < 0) :
    f.round q = if 2 ^ (f.emax + 1) ≤ f.roundMag (-q) then TVal.negInf
      else TVal.num (-(f.roundMag (-q))) := by
  simp [round, not_le.mpr hq]

theorem round_ne_nan (q : ℚ) : f.round q ≠ TVal.nan := by
  unfold round
  split_ifs <;> simp

theorem round_zero : f.round 0 = TVal.num 0 := by
  rw [f.round_of_nonneg (le_refl 0), roundMag_zero, if_neg]
  exact not_le.mpr (two_zpow_pos _)

/-- Rounding is monotone. -/
theorem round_mono (hp : 1 ≤ f.prec) {a b : ℚ} (hab : a ≤ b) :
    (f.round a).le (f.round b) := by
  have hT := two_zpow_pos (f.emax + 1)
  rcases le_or_lt 0 a with ha | ha
  · have hb : 0 ≤ b := le_trans ha hab
    have hm := f.roundMag_mono hp ha hab
    rw [f.round_of_nonneg ha, f.round_of_nonneg hb]
    split_ifs with h1 h2 h2
    · trivial
    · exact absurd (le_trans h1 hm) h2
    · trivial
    · exact hm
  · rw [f.round_of_neg ha]
    rcases le_or_lt 0 b with hb | hb
    · rw [f.round_of_nonneg hb]
      have h1 := f.roundMag_nonneg (neg_nonneg.mpr ha.le)
      have h2 := f.roundMag_nonneg hb
      split_ifs
      · trivial
      · trivial
      · trivial
      · show -(f.roundMag (-a)) ≤ f.roundMag b
        linarith
    · rw [f.round_of_neg hb]
      have hm := f.roundMag_mono hp (neg_nonneg.mpr hb.le) (neg_le_neg hab)
      split_ifs with h1 h2 h2
      · trivial
      · trivial
      · exact absurd (le_trans h2 hm) h1
      · show -(f.roundMag (-a)) ≤ -(f.roundMag (-b))
        linarith

theorem roundMag_of_onGrid {q : ℚ} (h : f.OnGrid q) : f.roundMag q = q := by
  obtain ⟨m, hm⟩ := h
  have hu := two_zpow_pos (f.ulpExp q)
  have e : q / 2 ^ f.ulpExp q = (m : ℚ) := by
    rw [div_eq_iff hu.ne']
    exact hm
  unfold roundMag
  rw [e, roundHalfEven_intCast]
  exact hm.symm

theorem onGrid_roundMag (hp : 1 ≤ f.prec) {q : ℚ} (hq : 0 ≤ q) : f.OnGrid (f.roundMag q) := by
  rcases eq_or_lt_of_le (f.roundMag_nonneg hq) with h0 | hpos
  · exact ⟨0, by rw [← h0]; simp⟩
  · have hq' : 0 < q := by
      rcases eq_or_lt_of_le hq with h | h
      · rw [← h, roundMag_zero] at hpos
        exact absurd hpos (lt_irrefl _)
      · exact h
    have hdef : f.roundMag q
        = (roundHalfEven (q / 2 ^ f.ulpExp q) : ℚ) * 2 ^ f.ulpExp q := rfl
    have htop := f.roundMag_le_top hq'
    generalize f.roundMag q = r at hdef htop hpos ⊢
    rcases le_or_lt (f.ulpExp r) (f.ulpExp q) with hle | hgt
    · -- the unit of the result divides the unit of `q`
      generalize roundHalfEven (q / 2 ^ f.ulpExp q) = M at hdef
      refine ⟨M * 2 ^ (f.ulpExp q - f.ulpExp r).toNat, ?_⟩
      have e : f.ulpExp q = ((f.ulpExp q - f.ulpExp r).toNat : ℤ) + f.ulpExp r := by
        rw [Int.toNat_of_nonneg (by omega)]
        ring
      have hpow : (2 : ℚ) ^ f.ulpExp q
          = (((2 : ℤ) ^ (f.ulpExp q - f.ulpExp r).toNat : ℤ) : ℚ) * 2 ^ f.ulpExp r := by
        rw [← two_zpow_nat, ← two_zpow_add, ← e]
      calc r = (M : ℚ) * 2 ^ f.ulpExp q := hdef
        _ = (M : ℚ) * ((((2 : ℤ) ^ (f.ulpExp q - f.ulpExp r).toNat : ℤ) : ℚ)
              * 2 ^ f.ulpExp r) := by rw [hpow]
        _ = ((M * 2 ^ (f.ulpExp q - f.ulpExp r).toNat : ℤ) : ℚ) * 2 ^ f.ulpExp r := by
            push_cast
            ring
    · -- the result is the power of two at the top of the binade of `q`
      have hEr : f.emin < max (ilog2 r) f.emin := by
        unfold ulpExp at hgt
        have := le_max_right (ilog2 q) f.emin
        omega
      have h1 := f.bot_le hpos hEr
      have h3 : f.ulpExp r + (f.prec : ℤ) - 1 ≤ f.ulpExp q + (f.prec : ℤ) := by
        by_contra hcon
        have : (2 : ℚ) ^ (f.ulpExp q + (f.prec : ℤ)) < 2 ^ (f.ulpExp r + (f.prec : ℤ) - 1) :=
          two_zpow_lt_iff.mpr (by omega)
        linarith
      have h4 : f.ulpExp r = f.ulpExp q + 1 := by omega
      have h5 : r = 2 ^ (f.ulpExp q + (f.prec : ℤ)) := by
        apply le_antisymm htop
        have : f.ulpExp r + (f.prec : ℤ) - 1 = f.ulpExp q + (f.prec : ℤ) := by omega
        rw [this] at h1
        exact h1
      refine ⟨2 ^ (f.prec - 1), ?_⟩
      have e : f.ulpExp q + (f.prec : ℤ) = ((f.prec - 1 : ℕ) : ℤ) + f.ulpExp r := by omega
      calc r = 2 ^ (f.ulpExp q + (f.prec : ℤ)) := h5
        _ = (((2 : ℤ) ^ (f.prec - 1) : ℤ) : ℚ) * 2 ^ f.ulpExp r := by
            rw [e, two_zpow_add, two_zpow_nat]

theorem roundMag_idem (hp : 1 ≤ f.prec) {q : ℚ} (hq : 0 ≤ q) :
    f.roundMag (f.roundMag q) = f.roundMag q :=
  f.roundMag_of_onGrid (f.onGrid_roundMag hp hq)

theorem round_representable (hp : 1 ≤ f.prec) {q r : ℚ} (h : f.round q = TVal.num r) :
    f.Representable r := by
  rcases le_or_lt 0 q with hq | hq
  · rw [f.round_of_nonneg hq] at h
    split_ifs at h with h1
    injection h with h
    have hr : 0 ≤ r := h ▸ f.roundMag_nonneg hq
    rw [Representable, abs_of_nonneg hr, ← h]
    exact ⟨f.onGrid_roundMag hp hq, not_le.mp h1⟩
  · rw [f.round_of_neg hq] at h
    split_ifs at h with h1
    injection h with h
    have hq' : 0 ≤ -q := neg_nonneg.mpr hq.le
    have hr : r ≤ 0 := by
      rw [← h]
      exact neg_nonpos.mpr (f.roundMag_nonneg hq')
    have e : |r| = f.roundMag (-q) := by
      rw [abs_of_nonpos hr, ← h, neg_neg]
    rw [Representable, e]
    exact ⟨f.onGrid_roundMag hp hq', not_le.mp h1⟩

theorem round_of_representable {r : ℚ} (h : f.Representable r) : f.round r = TVal.num r := by
  obtain ⟨h1, h2⟩ := h
  rcases le_or_lt 0 r with hr | hr
  · rw [abs_of_nonneg hr] at h1 h2
    rw [f.round_of_nonneg hr, f.roundMag_of_onGrid h1, if_neg (not_le.mpr h2)]
  · rw [abs_of_neg hr] at h1 h2
    rw [f.round_of_neg hr, f.roundMag_of_onGrid h1, if_neg (not_le.mpr h2), neg_neg]

/-- A finite rounded value is a fixed point of the rounding. -/
theorem round_idem (hp : 1 ≤ f.prec) {q r : ℚ} (h : f.round q = TVal.num r) :
    f.round r = TVal.num r :=
  f.round_of_representable (f.round_representable hp h)

/-- A value of a format is a value of every format that is at least as fine and
as wide. -/
theorem Representable.widen {g : Format} (hp : f.prec ≤ g.prec) (he : g.emin ≤ f.emin)
    (hx : f.emax ≤ g.emax) {r : ℚ} (h : f.Representable r) : g.Representable r := by
  obtain ⟨⟨m, hm⟩, h2⟩ := h
  refine ⟨?_, lt_of_lt_of_le h2 (two_zpow_le (by omega))⟩
  have hle : g.ulpExp |r| ≤ f.ulpExp |r| := by
    unfold ulpExp
    have := max_le_max (le_refl (ilog2 |r|)) he
    omega
  have e : f.ulpExp |r| = ((f.ulpExp |r| - g.ulpExp |r|).toNat : ℤ) + g.ulpExp |r| := by
    rw [Int.toNat_of_nonneg (by omega)]
    ring
  have hpow : (2 : ℚ) ^ f.ulpExp |r|
      = (((2 : ℤ) ^ (f.ulpExp |r| - g.ulpExp |r|).toNat : ℤ) : ℚ) * 2 ^ g.ulpExp |r| := by
    rw [← two_zpow_nat, ← two_zpow_add, ← e]
  refine ⟨m * 2 ^ (f.ulpExp |r| - g.ulpExp |r|).toNat, ?_⟩
  calc |r| = (m : ℚ) * 2 ^ f.ulpExp |r| := hm
    _ = (m : ℚ) * ((((2 : ℤ) ^ (f.ulpExp |r| - g.ulpExp |r|).toNat : ℤ) : ℚ)
          * 2 ^ g.ulpExp |r|) := by rw [hpow]
    _ = ((m * 2 ^ (f.ulpExp |r| - g.ulpExp |r|).toNat : ℤ) : ℚ) * 2 ^ g.ulpExp |r| := by
        push_cast
        ring

/-- Every value of the format is a whole multiple of its least positive value. -/
theorem Representable.multiple {r : ℚ} (h : f.Representable r) :
    ∃ k : ℤ, r = (k : ℚ) * 2 ^ (f.emin - ((f.prec : ℤ) - 1)) := by
  obtain ⟨⟨m, hm⟩, -⟩ := h
  have hle : f.emin - ((f.prec : ℤ) - 1) ≤ f.ulpExp |r| := by
    unfold ulpExp
    have := le_max_right (ilog2 |r|) f.emin
    omega
  have e : f.ulpExp |r|
      = ((f.ulpExp |r| - (f.emin - ((f.prec : ℤ) - 1))).toNat : ℤ)
        + (f.emin - ((f.prec : ℤ) - 1)) := by
    rw [Int.toNat_of_nonneg (by omega)]
    ring
  have hpow : (2 : ℚ) ^ f.ulpExp |r|
      = (((2 : ℤ) ^ (f.ulpExp |r| - (f.emin - ((f.prec : ℤ) - 1))).toNat : ℤ) : ℚ)
        * 2 ^ (f.emin - ((f.prec : ℤ) - 1)) := by
    rw [← two_zpow_nat, ← two_zpow_add, ← e]
  have habs : ∃ K : ℤ, |r| = (K : ℚ) * 2 ^ (f.emin - ((f.prec : ℤ) - 1)) := by
    refine ⟨m * 2 ^ (f.ulpExp |r| - (f.emin - ((f.prec : ℤ) - 1))).toNat, ?_⟩
    calc |r| = (m : ℚ) * 2 ^ f.ulpExp |r| := hm
      _ = _ := by
        rw [hpow]
        push_cast
        ring
  obtain ⟨K, hK⟩ := habs
  rcases le_or_lt 0 r with hr | hr
  · rw [abs_of_nonneg hr] at hK
    exact ⟨K, hK⟩
  · rw [abs_of_neg hr] at hK
    refine ⟨-K, ?_⟩
    rw [Int.cast_neg, neg_mul, ← hK, neg_neg]

theorem ilog2_two_zpow (e : ℤ) : ilog2 ((2 : ℚ) ^ e) = e := by
  rw [ilog2_eq_log _ (two_zpow_pos e)]
  have := @Int.log_zpow ℚ _ _ 2 (by norm_num) e
  simpa using this

/-- The difference of two distinct values of the format does not round to
zero. -/
theorem round_sub_pos (hp : 1 ≤ f.prec) {a b : ℚ} (ha : f.Representable a)
    (hb : f.Representable b) (hab : a < b) :
    f.round (b - a) = TVal.posInf ∨ ∃ d : ℚ, 0 < d ∧ f.round (b - a) = TVal.num d := by
  obtain ⟨ka, hka⟩ := ha.multiple
  obtain ⟨kb, hkb⟩ := hb.multiple
  have hg := two_zpow_pos (f.emin - ((f.prec : ℤ) - 1))
  have hk : ka < kb := by
    by_contra hcon
    have : (kb : ℚ) ≤ (ka : ℚ) := by exact_mod_cast not_lt.mp hcon
    have := mul_le_mul_of_nonneg_right this hg.le
    rw [← hka, ← hkb] at this
    linarith
  have hge : (2 : ℚ) ^ (f.emin - ((f.prec : ℤ) - 1)) ≤ b - a := by
    have h1 : (1 : ℚ) ≤ (kb : ℚ) - (ka : ℚ) := by
      have : ka + 1 ≤ kb := hk
      have : ((ka + 1 : ℤ) : ℚ) ≤ (kb : ℚ) := by exact_mod_cast this
      push_cast at this
      linarith
    rw [hka, hkb, ← sub_mul]
    calc (2 : ℚ) ^ (f.emin - ((f.prec : ℤ) - 1))
        = 1 * 2 ^ (f.emin - ((f.prec : ℤ) - 1)) := (one_mul _).symm
      _ ≤ ((kb : ℚ) - (ka : ℚ)) * 2 ^ (f.emin - ((f.prec : ℤ) - 1)) :=
          mul_le_mul_of_nonneg_right h1 hg.le
  have hgrid : f.OnGrid ((2 : ℚ) ^ (f.emin - ((f.prec : ℤ) - 1))) := by
    refine ⟨1, ?_⟩
    have : f.ulpExp ((2 : ℚ) ^ (f.emin - ((f.prec : ℤ) - 1))) = f.emin - ((f.prec : ℤ) - 1) := by
      unfold ulpExp
      rw [ilog2_two_zpow, max_eq_right (by omega)]
    rw [this]
    simp
  have hm := f.roundMag_mono hp hg.le hge
  rw [f.roundMag_of_onGrid hgrid] at hm
  rw [f.round_of_nonneg (by linarith)]
  split_ifs
  · exact Or.inl rfl
  · exact Or.inr ⟨_, lt_of_lt_of_le hg hm, rfl⟩

end Format

/-! ### The order on entries -/

theorem TVal.le_of_le_of_le {a b c : TVal} (h1 : a.le b) (h2 : b.le c) : a.le c := by
  cases a <;> cases b <;> cases c <;> simp only [TVal.le] at h1 h2 ⊢
  exact h1.trans h2

theorem TVal.lt_of_lt_of_lt {a b c : TVal} (h1 : a.lt b) (h2 : b.lt c) : a.lt c := by
  cases a <;> cases b <;> cases c <;> simp only [TVal.lt] at h1 h2 ⊢
  exact h1.trans h2

theorem TVal.le_of_lt {a b : TVal} (h : a.lt b) : a.le b := by
  cases a <;> cases b <;> simp only [TVal.lt, TVal.le] at h ⊢
  exact h.le

/-- A list in which every entry is below the next one is strictly increasing. -/
theorem TVal.pairwise_of_increasing (l : List TVal) (h : TVal.increasing l = true) :
    List.Pairwise TVal.lt l := by
  induction l with
  | nil => exact List.Pairwise.nil
  | cons a rest ih =>
    cases rest with
    | nil => exact List.pairwise_singleton _ _
    | cons b rest =>
      simp only [TVal.increasing, Bool.and_eq_true, decide_eq_true_eq] at h
      have hrest := ih h.2
      refine List.Pairwise.cons ?_ hrest
      intro c hc
      rcases List.mem_cons.mp hc with rfl | hc
      · exact h.1
      · exact TVal.lt_of_lt_of_lt h.1 ((List.pairwise_cons.mp hrest).1 c hc)

theorem TVal.ne_nan_of_le_left {a b : TVal} (h : a.le b) : a ≠ TVal.nan := by
  cases a <;> cases b <;> simp [TVal.le] at h ⊢

theorem TVal.ne_nan_of_le_right {a b : TVal} (h : a.le b) : b ≠ TVal.nan := by
  cases a <;> cases b <;> simp [TVal.le] at h ⊢

theorem TVal.le_posInf {a : TVal} (h : a ≠ TVal.nan) : a.le TVal.posInf := by
  cases a <;> simp [TVal.le] at h ⊢

theorem TVal.negInf_le {a : TVal} (h : a ≠ TVal.nan) : TVal.negInf.le a := by
  cases a <;> simp [TVal.le] at h ⊢

theorem TVal.maxv_of_le {a b : TVal} (h : a.le b) : a.maxv b = b ∧ b.maxv a = b := by
  cases a <;> cases b <;> simp [TVal.le, TVal.maxv] at h ⊢
  exact h

theorem TVal.minv_of_le {a b : TVal} (h : a.le b) : a.minv b = a ∧ b.minv a = a := by
  cases a <;> cases b <;> simp [TVal.le, TVal.minv] at h ⊢
  exact h

theorem TVal.maxv_self (a : TVal) : a.maxv a = a := by
  cases a <;> simp [TVal.maxv]

theorem TVal.minv_self (a : TVal) : a.minv a = a := by
  cases a <;> simp [TVal.minv]

/-- An entry between two numbers is a number between them. -/
theorem TVal.num_of_between {t : TVal} {a b : ℚ} (h1 : (TVal.num a).le t)
    (h2 : t.le (TVal.num b)) : ∃ w : ℚ, t = TVal.num w ∧ a ≤ w ∧ w ≤ b := by
  cases t <;> simp [TVal.le] at h1 h2
  exact ⟨_, rfl, h1, h2⟩

theorem TVal.sub_num_num (fl : ℚ → TVal) (a b : ℚ) :
    (TVal.num a).sub fl (TVal.num b) = fl (a - b) := by
  simp [TVal.sub, TVal.neg, TVal.add, sub_eq_add_neg]

theorem TVal.sub_eq_num {fl : ℚ → TVal} {a b : TVal} {d : ℚ} (h : a.sub fl b = TVal.num d) :
    ∃ x y : ℚ, a = TVal.num x ∧ b = TVal.num y ∧ fl (x - y) = TVal.num d := by
  cases a <;> cases b <;> simp [TVal.sub, TVal.neg, TVal.add] at h
  exact ⟨_, _, rfl, rfl, by rw [sub_eq_add_neg]; exact h⟩

theorem TVal.add_mono_left {fl : ℚ → TVal} (hfl : ∀ a b : ℚ, a ≤ b → (fl a).le (fl b))
    {a b : TVal} (c : ℚ) (h : a.le b) :
    (a.add fl (TVal.num c)).le (b.add fl (TVal.num c)) := by
  have hn : ∀ q : ℚ, fl q ≠ TVal.nan := fun q => TVal.ne_nan_of_le_left (hfl q q (le_refl q))
  cases a <;> cases b <;> simp only [TVal.le, TVal.add] at h ⊢
  · exact hfl _ _ (by linarith)
  · exact TVal.le_posInf (hn _)
  · exact TVal.negInf_le (hn _)

/-! ### Arithmetic on rational entries, exact -/

@[simp] theorem TVal.sub_num (a b : ℚ) :
    (TVal.num a).sub TVal.num (TVal.num b) = TVal.num (a - b) :=
  TVal.sub_num_num TVal.num a b

@[simp] theorem TVal.add_num (a b : ℚ) :
    (TVal.num a).add TVal.num (TVal.num b) = TVal.num (a + b) := rfl

@[simp] theorem TVal.mul_num (a b : ℚ) :
    (TVal.num a).mul TVal.num (TVal.num b) = TVal.num (a * b) := rfl

theorem TVal.div_num (a b : ℚ) :
    (TVal.num a).div TVal.num (TVal.num b)
      = if b = 0 then TVal.infOfSign a else TVal.num (a / b) := rfl

theorem TVal.div_num_of_ne (a b : ℚ) (h : b ≠ 0) :
    (TVal.num a).div TVal.num (TVal.num b) = TVal.num (a / b) := by
  simp [TVal.div_num, h]

/-! ### The program's arithmetic is lawful -/

theorem ieee_lawful : Arith.ieee.Lawful where
  store_mono := fun _ _ h => binary32.round_mono (by decide) h
  store_zero := binary32.round_zero
  store_one := by decide!
  store_idem := fun _ _ h => binary32.round_idem (by decide) h
  store_sub_pos := fun _ _ ha hb hab =>
    binary32.round_sub_pos (by decide) (binary32.round_representable (by decide) ha)
      (binary32.round_representable (by decide) hb) hab
  js_mono := fun _ _ h => binary64.round_mono (by decide) h
  js_fix := fun _ _ h =>
    binary64.round_of_representable
      ((binary32.round_representable (by decide) h).widen binary32 (by decide) (by decide)
        (by decide))

theorem exact_lawful : Arith.exact.Lawful where
  store_mono := fun _ _ h => h
  store_zero := rfl
  store_one := rfl
  store_idem := fun _ _ _ => rfl
  store_sub_pos := fun a b _ _ hab => Or.inr ⟨b - a, by linarith, rfl⟩
  js_mono := fun _ _ h => h
  js_fix := fun _ _ _ => rfl

theorem Arith.Lawful.store_ne_nan {ar : Arith} (L : ar.Lawful) (q : ℚ) :
    ar.store q ≠ TVal.nan :=
  TVal.ne_nan_of_le_left (L.store_mono q q (le_refl q))

/-! ### The shuffle is a permutation -/

theorem swap_perm {α : Type} (a : List α) (i j : Nat) : (swap a i j).Perm a := by
  classical
  unfold swap
  split
  · rename_i x y hx hy
    obtain ⟨hi, rfl⟩ := List.getElem?_eq_some_iff.mp hx
    obtain ⟨hj, rfl⟩ := List.getElem?_eq_some_iff.mp hy
    rw [List.perm_iff_count]
    intro z
    rw [List.count_set _ _ _ _ (by simpa using hj), List.count_set _ _ _ _ hi,
      List.getElem_set]
    have h1 : (if a[i] = z then 1 else 0) ≤ a.count z := by
      split_ifs with h
      · exact List.count_pos_iff.mpr (h ▸ List.getElem_mem hi)
      · exact Nat.zero_le _
    have h2 : (if a[j] = z then 1 else 0) ≤ a.count z := by
      split_ifs with h
      · exact List.count_pos_iff.mpr (h ▸ List.getElem_mem hj)
      · exact Nat.zero_le _
    by_cases hij : i = j
    · subst hij
      simp only [beq_iff_eq, if_true]
      split_ifs at h1 ⊢ <;> omega
    · simp only [beq_iff_eq, if_neg hij]
      split_ifs at h1 h2 ⊢ <;> omega
  · exact List.Perm.refl _

theorem shuffleLoop_perm {α : Type} (rnd : RandomSource) (c : Nat) (a : List α) :
    (shuffleLoop rnd c a).Perm a := by
  induction c generalizing a with
  | zero => exact List.Perm.refl _
  | succ c ih => exact (ih _).trans (swap_perm a c _)

theorem shuffle_perm_aux {α : Type} (rnd : RandomSource) (a : List α) :
    (shuffle rnd a).Perm a := shuffleLoop_perm rnd _ a

theorem shuffle_ne_nil {α : Type} (rnd : RandomSource) (a : List α) (h : a ≠ []) :
    shuffle rnd a ≠ [] := by
  intro h0
  have := (shuffle_perm_aux rnd a).length_eq
  rw [h0] at this
  exact h (List.length_eq_zero.mp this.symm)

/-! ### Extrema of a stored column -/

theorem foldl_max_spec (xs : List ℚ) (x : ℚ) :
    xs.foldl max x ∈ x :: xs ∧ ∀ v ∈ x :: xs, v ≤ xs.foldl max x := by
  induction xs generalizing x with
  | nil => simp
  | cons y ys ih =>
    obtain ⟨hm, hle⟩ := ih (max x y)
    simp only [List.foldl_cons]
    refine ⟨?_, ?_⟩
    · rcases List.mem_cons.mp hm with h | h
      · rw [h]
        rcases max_choice x y with h' | h' <;> simp [h']
      · simp [h]
    · intro v hv
      rcases List.mem_cons.mp hv with h | h
      · subst h
        exact le_trans (le_max_left v y) (hle _ (List.mem_cons_self _ _))
      · rcases List.mem_cons.mp h with h | h
        · subst h
          exact le_trans (le_max_right x v) (hle _ (List.mem_cons_self _ _))
        · exact hle _ (List.mem_cons_of_mem _ h)

theorem foldl_min_spec (xs : List ℚ) (x : ℚ) :
    xs.foldl min x ∈ x :: xs ∧ ∀ v ∈ x :: xs, xs.foldl min x ≤ v := by
  induction xs generalizing x with
  | nil => simp
  | cons y ys ih =>
    obtain ⟨hm, hle⟩ := ih (min x y)
    simp only [List.foldl_cons]
    refine ⟨?_, ?_⟩
    · rcases List.mem_cons.mp hm with h | h
      · rw [h]
        rcases min_choice x y with h' | h' <;> simp [h']
      · simp [h]
    · intro v hv
      rcases List.mem_cons.mp hv with h | h
      · subst h
        exact le_trans (hle _ (List.mem_cons_self _ _)) (min_le_left v y)
      · rcases List.mem_cons.mp h with h | h
        · subst h
          exact le_trans (hle _ (List.mem_cons_self _ _)) (min_le_right x v)
        · exact hle _ (List.mem_cons_of_mem _ h)

theorem maxv_store {ar : Arith} (L : ar.Lawful) (a b : ℚ) :
    (ar.store a).maxv (ar.store b) = ar.store (max a b) := by
  rcases le_total a b with h | h
  · rw [max_eq_right h]
    exact (TVal.maxv_of_le (L.store_mono a b h)).1
  · rw [max_eq_left h]
    exact (TVal.maxv_of_le (L.store_mono b a h)).2

theorem minv_store {ar : Arith} (L : ar.Lawful) (a b : ℚ) :
    (ar.store a).minv (ar.store b) = ar.store (min a b) := by
  rcases le_total a b with h | h
  · rw [min_eq_left h]
    exact (TVal.minv_of_le (L.store_mono a b h)).1
  · rw [min_eq_right h]
    exact (TVal.minv_of_le (L.store_mono b a h)).2

theorem foldl_maxv_store {ar : Arith} (L : ar.Lawful) (xs : List ℚ) (x : ℚ) :
    (xs.map ar.store).foldl TVal.maxv (ar.store x) = ar.store (xs.foldl max x) := by
  induction xs generalizing x with
  | nil => rfl
  | cons y ys ih =>
    simp only [List.map_cons, List.foldl_cons, maxv_store L]
    exact ih (max x y)

theorem foldl_minv_store {ar : Arith} (L : ar.Lawful) (xs : List ℚ) (x : ℚ) :
    (xs.map ar.store).foldl TVal.minv (ar.store x) = ar.store (xs.foldl min x) := by
  induction xs generalizing x with
  | nil => rfl
  | cons y ys ih =>
    simp only [List.map_cons, List.foldl_cons, minv_store L]
    exact ih (min x y)

/-- The reductions of a non-empty stored column are the stored values of its
least and greatest number. -/
theorem column_bounds {ar : Arith} (L : ar.Lawful) (be : Backend) (vs : List ℚ)
    (h : vs ≠ []) :
    ∃ lo hi : ℚ, lo ∈ vs ∧ hi ∈ vs ∧ (∀ v ∈ vs, lo ≤ v ∧ v ≤ hi)
      ∧ tensorMin be (tensor2d ar vs) = ar.store lo
      ∧ tensorMax be (tensor2d ar vs) = ar.store hi := by
  cases vs with
  | nil => exact absurd rfl h
  | cons x xs =>
    exact ⟨xs.foldl min x, xs.foldl max x, (foldl_min_spec xs x).1, (foldl_max_spec xs x).1,
      fun v hv => ⟨(foldl_min_spec xs x).2 v hv, (foldl_max_spec xs x).2 v hv⟩,
      foldl_minv_store L xs x, foldl_maxv_store L xs x⟩

theorem foldl_maxv_const (t : TVal) (ts : List TVal) (h : ∀ u ∈ ts, u = t) :
    ts.foldl TVal.maxv t = t := by
  induction ts with
  | nil => rfl
  | cons u us ih =>
    rw [List.foldl_cons, h u (List.mem_cons_self _ _), TVal.maxv_self]
    exact ih (fun w hw => h w (List.mem_cons_of_mem _ hw))

theorem foldl_minv_const (t : TVal) (ts : List TVal) (h : ∀ u ∈ ts, u = t) :
    ts.foldl TVal.minv t = t := by
  induction ts with
  | nil => rfl
  | cons u us ih =>
    rw [List.foldl_cons, h u (List.mem_cons_self _ _), TVal.minv_self]
    exact ih (fun w hw => h w (List.mem_cons_of_mem _ hw))

/-- A non-empty column whose numbers are all `c` has both bounds equal to the
stored `c`. -/
theorem column_constant (ar : Arith) (be : Backend) (vs : List ℚ) (c : ℚ) (h : vs ≠ [])
    (hall : ∀ v ∈ vs, v = c) :
    tensorMin be (tensor2d ar vs) = ar.store c ∧ tensorMax be (tensor2d ar vs) = ar.store c := by
  cases vs with
  | nil => exact absurd rfl h
  | cons x xs =>
    have hx : x = c := hall x (List.mem_cons_self _ _)
    have hxs : ∀ u ∈ xs.map ar.store, u = ar.store c := by
      intro u hu
      obtain ⟨v, hv, rfl⟩ := List.mem_map.mp hu
      rw [hall v (List.mem_cons_of_mem _ hv)]
    subst hx
    exact ⟨foldl_minv_const _ _ hxs, foldl_maxv_const _ _ hxs⟩

theorem convertToTensor_inputs (ar : Arith) (be : Backend) (rnd : RandomSource)
    (data : List Sample) :
    (convertToTensor ar be rnd data).2.inputs
      = normalise ar (tensor2d ar ((shuffle rnd data).map (fun d => d.horsepower)))
          (tensorMin be (tensor2d ar ((shuffle rnd data).map (fun d => d.horsepower))))
          (tensorMax be (tensor2d ar ((shuffle rnd data).map (fun d => d.horsepower)))) := rfl

theorem convertToTensor_labels (ar : Arith) (be : Backend) (rnd : RandomSource)
    (data : List Sample) :
    (convertToTensor ar be rnd data).2.labels
      = normalise ar (tensor2d ar ((shuffle rnd data).map (fun d => d.mpg)))
          (tensorMin be (tensor2d ar ((shuffle rnd data).map (fun d => d.mpg))))
          (tensorMax be (tensor2d ar ((shuffle rnd data).map (fun d => d.mpg)))) := rfl

theorem normalise_length (ar : Arith) (t : Tensor) (mn mx : TVal) :
    (normalise ar t mn mx).length = t.length := by
  simp [normalise, tensorDiv, tensorSub]

/-- A stored column with two different stored values and a finite range is
normalised into `[0, 1]`. -/
theorem column_normalised_unit {ar : Arith} (L : ar.Lawful) (be : Backend) (vs : List ℚ)
    (hne : ∃ a ∈ vs, ∃ b ∈ vs, ar.store a ≠ ar.store b)
    (hd : ∃ d : ℚ, (tensorMax be (tensor2d ar vs)).sub ar.store (tensorMin be (tensor2d ar vs))
      = TVal.num d) :
    ∀ t ∈ normalise ar (tensor2d ar vs) (tensorMin be (tensor2d ar vs))
        (tensorMax be (tensor2d ar vs)), t.inUnit := by
  obtain ⟨a, ha, b, hb, hab⟩ := hne
  obtain ⟨lo, hi, hlo, hhi, hall, emin, emax⟩ := column_bounds L be vs (List.ne_nil_of_mem ha)
  obtain ⟨d, hd⟩ := hd
  rw [emin, emax] at hd ⊢
  obtain ⟨M, m, eM, em, hMm⟩ := TVal.sub_eq_num hd
  -- every stored value is a number between the bounds
  have hbetween : ∀ v ∈ vs, ∃ w : ℚ, ar.store v = TVal.num w ∧ m ≤ w ∧ w ≤ M := by
    intro v hv
    have h1 := L.store_mono lo v (hall v hv).1
    have h2 := L.store_mono v hi (hall v hv).2
    rw [em] at h1
    rw [eM] at h2
    exact TVal.num_of_between h1 h2
  have hmM : m < M := by
    obtain ⟨wa, ea, a1, a2⟩ := hbetween a ha
    obtain ⟨wb, eb, b1, b2⟩ := hbetween b hb
    by_contra hcon
    apply hab
    rw [ea, eb]
    congr 1
    linarith
  have hdpos : 0 < d := by
    have hm := L.store_idem lo m em
    have hM := L.store_idem hi M eM
    rcases L.store_sub_pos m M hm hM hmM with h | ⟨d', hd', h⟩
    · rw [h] at hMm
      exact absurd hMm (by simp)
    · rw [h] at hMm
      injection hMm with hMm
      rw [← hMm]
      exact hd'
  intro t ht
  simp only [normalise, tensorDiv, tensorSub, tensor2d, List.map_map, List.mem_map,
    Function.comp] at ht
  obtain ⟨v, hv, rfl⟩ := ht
  obtain ⟨w, ew, w1, w2⟩ := hbetween v hv
  rw [ew, hd, em, TVal.sub_num_num]
  -- the numerator is a number between `0` and the range
  have n1 := L.store_mono 0 (w - m) (by linarith)
  have n2 := L.store_mono (w - m) (M - m) (by linarith)
  rw [L.store_zero] at n1
  rw [hMm] at n2
  obtain ⟨p, ep, p1, p2⟩ := TVal.num_of_between n1 n2
  rw [ep]
  have hq : (TVal.num p).div ar.store (TVal.num d) = ar.store (p / d) := by
    simp [TVal.div, hdpos.ne']
  rw [hq]
  have q1 := L.store_mono 0 (p / d) (div_nonneg p1 hdpos.le)
  have q2 := L.store_mono (p / d) 1 ((div_le_one hdpos).mpr p2)
  rw [L.store_zero] at q1
  rw [L.store_one] at q2
  obtain ⟨e, ee, e1, e2⟩ := TVal.num_of_between q1 q2
  rw [ee]
  exact ⟨e1, e2⟩

/-! ### The prediction curve -/

theorem linspaceFrom_length (ar : Arith) (step : TVal) (n : Nat) (v : TVal) :
    (linspaceFrom ar step n v).length = n := by
  induction n generalizing v with
  | zero => rfl
  | succ n ih => simp [linspaceFrom, ih]

theorem linspace_length (ar : Arith) (start stop : ℚ) (n : Nat) :
    (linspace ar start stop n).length = n :=
  linspaceFrom_length ar _ n _

theorem predictedPoints_eq (ar : Arith) (model : Sequential) (inputData : List Sample)
    (nd : TensorData) :
    (testModel ar model inputData nd).predictedPoints
      = (linspace ar 0 1 100).map (fun n =>
          ({ x := (n.mul ar.store (nd.inputMax.sub ar.store nd.inputMin)).add ar.store
                    nd.inputMin
             y := ((model.forward ar n).mul ar.store
                    (nd.labelMax.sub ar.store nd.labelMin)).add ar.store nd.labelMin }
            : Point)) := by
  simp [testModel, unNormalise, tensorAdd, tensorMul, Sequential.predict,
    List.zipWith_map_left, List.zipWith_map_right, List.zipWith_same]

theorem predictedPoints_length (ar : Arith) (model : Sequential) (inputData : List Sample)
    (nd : TensorData) : (testModel ar model inputData nd).predictedPoints.length = 100 := by
  rw [predictedPoints_eq, List.length_map, linspace_length]

theorem predicted_xs (ar : Arith) (model : Sequential) (inputData : List Sample)
    (nd : TensorData) :
    (testModel ar model inputData nd).predictedPoints.map (fun p => p.x)
      = (linspace ar 0 1 100).map (fun n =>
          (n.mul ar.store (nd.inputMax.sub ar.store nd.inputMin)).add ar.store nd.inputMin) := by
  rw [predictedPoints_eq, List.map_map]
  rfl

/-- In exact arithmetic the loop of `linspace` produces `v + i * s`. -/
theorem linspaceFrom_exact (s : ℚ) (n : Nat) (v : ℚ) :
    linspaceFrom Arith.exact (TVal.num s) n (TVal.num v)
      = (List.range n).map (fun i : ℕ => TVal.num (v + (i : ℚ) * s)) := by
  induction n generalizing v with
  | zero => rfl
  | succ n ih =>
    rw [linspaceFrom, List.range_succ_eq_map, List.map_cons, List.map_map]
    have hnext : ((TVal.num v).add Arith.exact.js (TVal.num s)).cast Arith.exact.store
        = TVal.num (v + s) := rfl
    rw [hnext, ih (v + s)]
    congr 1
    · simp
    · apply List.map_congr_left
      intro i _
      simp only [Function.comp, Nat.cast_succ]
      congr 1
      ring

theorem linspace_exact_unit :
    linspace Arith.exact 0 1 100 = (List.range 100).map (fun i : ℕ => TVal.num ((i : ℚ) / 99)) := by
  have hstep : ((TVal.num 1).sub Arith.exact.js (TVal.num 0)).div Arith.exact.js
      ((TVal.num ((100 : ℕ) : ℚ)).sub Arith.exact.js (TVal.num 1)) = TVal.num (1 / 99) := by
    simp only [Arith.exact, TVal.sub_num, TVal.div_num]
    norm_num
  unfold linspace
  simp only [hstep]
  have h0 : Arith.exact.store 0 = TVal.num 0 := rfl
  rw [h0, linspaceFrom_exact]
  apply List.map_congr_left
  intro i _
  congr 1
  ring

theorem createModel_forward_exact (W1 b1 W2 b2 x : ℚ) :
    (createModel { W1 := TVal.num W1, b1 := TVal.num b1, W2 := TVal.num W2,
                   b2 := TVal.num b2 }).forward Arith.exact (TVal.num x)
      = TVal.num (W2 * (W1 * x + b1) + b2) := by
  simp [createModel, Sequential.forward, Dense.apply, Arith.exact, mul_comm]

set_option maxRecDepth 100000 in
/-- The grid of the program, evaluated: it starts at `0`, every entry is below
the next, all lie within `[0, 2]`, the second is `0.010101010091602802` and the
last `1.0000007152557373`. -/
theorem linspace_ieee_eval :
    (linspace Arith.ieee 0 1 100).head? = some (TVal.num 0)
    ∧ TVal.increasing (linspace Arith.ieee 0 1 100) = true
    ∧ (∀ t ∈ linspace Arith.ieee 0 1 100, (TVal.num 0).le t ∧ t.le (TVal.num 2))
    ∧ (linspace Arith.ieee 0 1 100)[1]? = some (TVal.num (10845877 / 1073741824))
    ∧ (linspace Arith.ieee 0 1 100).getLast? = some (TVal.num (4194307 / 4194304)) := by
  decide!

/-- The grid of the program increases strictly. -/
theorem linspace_ieee_increasing : List.Pairwise TVal.lt (linspace Arith.ieee 0 1 100) :=
  TVal.pairwise_of_increasing _ linspace_ieee_eval.2.1

/-- Scaling by a non-negative range and shifting keeps the order of two
numbers. -/
theorem unNormalise_mono {ar : Arith} (L : ar.Lawful) {x y d : ℚ} (c : ℚ) (hd : 0 ≤ d)
    (hxy : x ≤ y) :
    (((TVal.num x).mul ar.store (TVal.num d)).add ar.store (TVal.num c)).le
      (((TVal.num y).mul ar.store (TVal.num d)).add ar.store (TVal.num c)) := by
  apply TVal.add_mono_left L.store_mono
  exact L.store_mono _ _ (mul_le_mul_of_nonneg_right hxy hd)

/-! ### Batches and epochs -/

theorem batchesAux_nil {α : Type} (bs fuel : Nat) : batchesAux bs fuel ([] : List α) = [] := by
  cases fuel <;> rfl

theorem batchesAux_flatten {α : Type} (bs : Nat) (hbs : 0 < bs) (fuel : Nat) (l : List α)
    (h : l.length ≤ fuel) : (batchesAux bs fuel l).flatten = l := by
  induction fuel generalizing l with
  | zero =>
    have : l = [] := List.length_eq_zero.mp (Nat.le_zero.mp h)
    subst this
    rfl
  | succ fuel ih =>
    cases l with
    | nil => rfl
    | cons x xs =>
      simp only [batchesAux, List.flatten_cons]
      rw [ih]
      · exact List.take_append_drop _ _
      · simp only [List.length_drop, List.length_cons] at h ⊢
        omega

theorem batchesAux_length_le {α : Type} (bs fuel : Nat) (l : List α) :
    ∀ b ∈ batchesAux bs fuel l, b.length ≤ bs := by
  induction fuel generalizing l with
  | zero => intro b hb; simp [batchesAux] at hb
  | succ fuel ih =>
    cases l with
    | nil => intro b hb; simp [batchesAux] at hb
    | cons x xs =>
      intro b hb
      simp only [batchesAux, List.mem_cons] at hb
      rcases hb with rfl | hb
      · exact List.length_take_le _ _
      · exact ih _ b hb

theorem batchesAux_full {α : Type} (bs fuel : Nat) (l : List α) :
    ∀ b ∈ (batchesAux bs fuel l).dropLast, b.length = bs := by
  induction fuel generalizing l with
  | zero => intro b hb; simp [batchesAux] at hb
  | succ fuel ih =>
    cases l with
    | nil => intro b hb; simp [batchesAux] at hb
    | cons x xs =>
      intro b hb
      simp only [batchesAux] at hb
      by_cases hr : batchesAux bs fuel (List.drop bs (x :: xs)) = []
      · rw [hr] at hb
        simp at hb
      · rw [List.dropLast_cons_of_ne_nil hr, List.mem_cons] at hb
        rcases hb with rfl | hb
        · have hd : List.drop bs (x :: xs) ≠ [] := by
            intro h0
            rw [h0, batchesAux_nil] at hr
            exact hr rfl
          have : bs < (x :: xs).length := by
            by_contra hlt
            exact hd (List.drop_eq_nil_of_le (Nat.le_of_not_lt hlt))
          rw [List.length_take]
          omega
        · exact ih _ b hb

theorem epochOrdersFrom_length (flag : Bool) (rnd : Nat → RandomSource) (epochs epoch : Nat)
    (arr : List Nat) : (epochOrdersFrom flag rnd epochs epoch arr).length = epochs := by
  induction epochs generalizing epoch arr with
  | zero => rfl
  | succ k ih => simp [epochOrdersFrom, ih]

theorem reshuffledOrderFrom_succ (rnd : Nat → RandomSource) (arr : List Nat) (e0 i : Nat) :
    reshuffledOrderFrom rnd (shuffle (rnd e0) arr) (e0 + 1) i
      = reshuffledOrderFrom rnd arr e0 (i + 1) := by
  induction i with
  | zero => rfl
  | succ i ih =>
    have e : e0 + 1 + i + 1 = e0 + (i + 1) + 1 := by omega
    rw [reshuffledOrderFrom, ih, e]
    rfl

/-- With `shuffle` set, the order of every epoch is the shuffle of the order of
the epoch before. -/
theorem epochOrdersFrom_getElem (rnd : Nat → RandomSource) (epochs e0 : Nat) (arr : List Nat)
    (i : Nat) (hi : i < epochs) :
    (epochOrdersFrom true rnd epochs e0 arr)[i]? = some (reshuffledOrderFrom rnd arr e0 i) := by
  induction epochs generalizing e0 arr i with
  | zero => omega
  | succ k ih =>
    cases i with
    | zero => simp [epochOrdersFrom, reshuffledOrderFrom]
    | succ i =>
      simp only [epochOrdersFrom, if_true, List.getElem?_cons_succ]
      rw [ih (e0 + 1) _ i (by omega), reshuffledOrderFrom_succ]

theorem reshuffledOrder_eq (rnd : Nat → RandomSource) (n e : Nat) :
    reshuffledOrder rnd n e = reshuffledOrderFrom rnd (List.range n) 0 e := by
  induction e with
  | zero => rfl
  | succ e ih =>
    have e' : 0 + e + 1 = e + 1 := by omega
    rw [reshuffledOrder, reshuffledOrderFrom, ih, e']

theorem reshuffledOrder_perm (rnd : Nat → RandomSource) (n e : Nat) :
    (reshuffledOrder rnd n e).Perm (List.range n) := by
  induction e with
  | zero => exact shuffle_perm_aux _ _
  | succ e ih => exact (shuffle_perm_aux _ _).trans ih

/-! ### Bounds of a dataset -/

/-- The bounds returned for a non-empty dataset are the stored values of the
least and greatest number of each column. -/
theorem bounds_of_nonempty {ar : Arith} (L : ar.Lawful) (be : Backend) (rnd : RandomSource)
    (data : List Sample) (h : data ≠ []) :
    (∃ lo ∈ data, ∃ hi ∈ data,
      (∀ s ∈ data, lo.horsepower ≤ s.horsepower ∧ s.horsepower ≤ hi.horsepower)
      ∧ (convertToTensor ar be rnd data).2.inputMin = ar.store lo.horsepower
      ∧ (convertToTensor ar be rnd data).2.inputMax = ar.store hi.horsepower)
    ∧ (∃ lo ∈ data, ∃ hi ∈ data,
      (∀ s ∈ data, lo.mpg ≤ s.mpg ∧ s.mpg ≤ hi.mpg)
      ∧ (convertToTensor ar be rnd data).2.labelMin = ar.store lo.mpg
      ∧ (convertToTensor ar be rnd data).2.labelMax = ar.store hi.mpg) := by
  have hp := shuffle_perm_aux rnd data
  have hne := shuffle_ne_nil rnd data h
  constructor
  · obtain ⟨lo, hi, hlo, hhi, hall, emin, emax⟩ :=
      column_bounds L be ((shuffle rnd data).map (fun d => d.horsepower)) (by simpa using hne)
    obtain ⟨slo, hslo, elo⟩ := List.mem_map.mp hlo
    obtain ⟨shi, hshi, ehi⟩ := List.mem_map.mp hhi
    refine ⟨slo, hp.mem_iff.mp hslo, shi, hp.mem_iff.mp hshi, ?_, ?_, ?_⟩
    · intro s hs
      rw [elo, ehi]
      exact hall s.horsepower (List.mem_map.mpr ⟨s, hp.mem_iff.mpr hs, rfl⟩)
    · rw [elo]
      exact emin
    · rw [ehi]
      exact emax
  · obtain ⟨lo, hi, hlo, hhi, hall, emin, emax⟩ :=
      column_bounds L be ((shuffle rnd data).map (fun d => d.mpg)) (by simpa using hne)
    obtain ⟨slo, hslo, elo⟩ := List.mem_map.mp hlo
    obtain ⟨shi, hshi, ehi⟩ := List.mem_map.mp hhi
    refine ⟨slo, hp.mem_iff.mp hslo, shi, hp.mem_iff.mp hshi, ?_, ?_, ?_⟩
    · intro s hs
      rw [elo, ehi]
      exact hall s.mpg (List.mem_map.mpr ⟨s, hp.mem_iff.mpr hs, rfl⟩)
    · rw [elo]
      exact emin
    · rw [ehi]
      exact emax

theorem normalise_num (vs : List ℚ) (mn mx : ℚ) :
    normalise Arith.exact (tensor2d Arith.exact vs) (TVal.num mn) (TVal.num mx)
      = vs.map (fun v => (TVal.num (v - mn)).div TVal.num (TVal.num (mx - mn))) := by
  simp [normalise, tensorDiv, tensorSub, tensor2d, Arith.exact, Function.comp_def]

theorem unNormalise_num (ns : List ℚ) (mn mx : ℚ) :
    unNormalise Arith.exact (tensor2d Arith.exact ns) (TVal.num mn) (TVal.num mx)
      = tensor2d Arith.exact (ns.map (fun n => n * (mx - mn) + mn)) := by
  simp [unNormalise, tensorAdd, tensorMul, tensor2d, Arith.exact, Function.comp_def]

/-! ### The claims -/

theorem JsVal.neNull_iff (v : JsVal) : v.neNull = true ↔ v.Present := by
  cases v <;> simp [JsVal.neNull, JsVal.Present]

/-- C1: the cleaning step of `getData` returns, in input order, exactly the
projections of the records whose `Horsepower` and `Miles_per_Gallon` are both
present and non-null; every output sample has non-null fields, and the number
of output samples is the number of complete input records. -/
theorem getData_clean (carsData : List Car) :
    getData carsData = (carsData.filter (fun c => decide c.Complete)).map Car.project
    ∧ (∀ s ∈ getData carsData, s.horsepower.Present ∧ s.mpg.Present)
    ∧ (getData carsData).length = carsData.countP (fun c => decide c.Complete) := by
  have key : getData carsData
      = (carsData.filter (fun c => decide c.Complete)).map Car.project := by
    unfold getData
    rw [List.filter_map]
    congr 1
    apply List.filter_congr
    intro c _
    simp only [Function.comp, Car.Complete, Bool.and_eq_true, Bool.decide_and]
    rw [Bool.eq_iff_iff]
    simp only [Bool.and_eq_true, JsVal.neNull_iff, decide_eq_true_eq]
    exact And.comm
  refine ⟨key, ?_, ?_⟩
  · intro s hs
    unfold getData at hs
    simp only [List.mem_filter, List.mem_map, Bool.and_eq_true, JsVal.neNull_iff] at hs
    exact ⟨hs.2.2, hs.2.1⟩
  · rw [key, List.length_map, List.countP_eq_length_filter]

/-- C2: for bounds `min < max`, normalising values as `convertToTensor` does
and then undoing the scaling as `testModel` does gives the values back, in exact
arithmetic. This holds for every value, in particular for those within
`[min, max]`, and the same two operations serve the horsepower and the mpg
column. -/
theorem normalise_roundtrip (mn mx : ℚ) (vs : List ℚ) (h : mn < mx) :
    unNormalise Arith.exact
      (normalise Arith.exact (tensor2d Arith.exact vs) (TVal.num mn) (TVal.num mx))
      (TVal.num mn) (TVal.num mx) = tensor2d Arith.exact vs := by
  have hne : mx - mn ≠ 0 := by
    intro h0
    linarith
  have e : normalise Arith.exact (tensor2d Arith.exact vs) (TVal.num mn) (TVal.num mx)
      = tensor2d Arith.exact (vs.map (fun v => (v - mn) / (mx - mn))) := by
    rw [normalise_num]
    simp [tensor2d, Arith.exact, TVal.div_num_of_ne _ _ hne]
  rw [e, unNormalise_num, List.map_map]
  congr 1
  conv_rhs => rw [← List.map_id vs]
  apply List.map_congr_left
  intro v _
  simp only [Function.comp, id]
  field_simp

theorem normalise_roundtrip_witness :
    (100 : ℚ) < 200 ∧
    unNormalise Arith.exact
      (normalise Arith.exact (tensor2d Arith.exact [100, 150, 200]) (TVal.num 100)
        (TVal.num 200))
      (TVal.num 100) (TVal.num 200) = tensor2d Arith.exact [100, 150, 200] :=
  ⟨by norm_num, normalise_roundtrip 100 200 [100, 150, 200] (by norm_num)⟩

/-- C3, as the code has it: for a non-empty dataset whose horsepower values are
all equal, `convertToTensor` reports nothing; it returns an object whose
`inputMin` and `inputMax` are both the stored value of that horsepower and whose
inputs tensor has one entry per sample. The same holds for equal mpg values,
`labelMin`, `labelMax` and the labels. -/
theorem convertToTensor_degenerate (ar : Arith) (be : Backend) (rnd : RandomSource)
    (data : List Sample) (c d : ℚ) (h : data ≠ []) :
    ((∀ s ∈ data, s.horsepower = c) →
      (convertToTensor ar be rnd data).2.inputMin = ar.store c
      ∧ (convertToTensor ar be rnd data).2.inputMax = ar.store c
      ∧ (convertToTensor ar be rnd data).2.inputs.length = data.length)
    ∧ ((∀ s ∈ data, s.mpg = d) →
      (convertToTensor ar be rnd data).2.labelMin = ar.store d
      ∧ (convertToTensor ar be rnd data).2.labelMax = ar.store d
      ∧ (convertToTensor ar be rnd data).2.labels.length = data.length) := by
  have hp := shuffle_perm_aux rnd data
  have hne := shuffle_ne_nil rnd data h
  constructor
  · intro hall
    have key := column_constant ar be ((shuffle rnd data).map (fun s => s.horsepower)) c
      (by simpa using hne)
      (by
        intro v hv
        obtain ⟨s, hs, rfl⟩ := List.mem_map.mp hv
        exact hall s (hp.mem_iff.mp hs))
    refine ⟨key.1, key.2, ?_⟩
    rw [convertToTensor_inputs, normalise_length]
    simp [tensor2d, hp.length_eq]
  · intro hall
    have key := column_constant ar be ((shuffle rnd data).map (fun s => s.mpg)) d
      (by simpa using hne)
      (by
        intro v hv
        obtain ⟨s, hs, rfl⟩ := List.mem_map.mp hv
        exact hall s (hp.mem_iff.mp hs))
    refine ⟨key.1, key.2, ?_⟩
    rw [convertToTensor_labels, normalise_length]
    simp [tensor2d, hp.length_eq]

theorem convertToTensor_degenerate_witness :
    flatData ≠ [] ∧ (∀ s ∈ flatData, s.horsepower = 100) ∧ (∀ s ∈ flatData, s.mpg = 20)
    ∧ (convertToTensor Arith.ieee neutralBackend lastIndex flatData).2.inputMin
        = (convertToTensor Arith.ieee neutralBackend lastIndex flatData).2.inputMax
    ∧ (convertToTensor Arith.ieee neutralBackend lastIndex flatData).2.labelMin
        = (convertToTensor Arith.ieee neutralBackend lastIndex flatData).2.labelMax := by
  have hne : flatData ≠ [] := by simp [flatData]
  have h1 : ∀ s ∈ flatData, s.horsepower = 100 := by simp [flatData]
  have h2 : ∀ s ∈ flatData, s.mpg = 20 := by simp [flatData]
  have key := convertToTensor_degenerate Arith.ieee neutralBackend lastIndex flatData 100 20 hne
  exact ⟨hne, h1, h2, (key.1 h1).1.trans (key.1 h1).2.1.symm,
    (key.2 h2).1.trans (key.2 h2).2.1.symm⟩

/-- C3 fails as stated: on two samples of horsepower 100 (and different mpg)
`convertToTensor` returns, with normalised inputs `[NaN, NaN]`. -/
theorem convertToTensor_degenerate_returns_nan :
    (∀ s ∈ [({ mpg := 20, horsepower := 100 } : Sample), { mpg := 10, horsepower := 100 }],
      s.horsepower = 100)
    ∧ (convertToTensor Arith.ieee neutralBackend firstIndex
        [{ mpg := 20, horsepower := 100 }, { mpg := 10, horsepower := 100 }]).2.inputs
      = [TVal.nan, TVal.nan] := by
  decide!

/-- C4, as the code has it: on the empty dataset `convertToTensor` rejects
nothing; it returns empty inputs and labels and, as bounds, what the backend
gives for an empty reduction. `trainModel` has no check either: it compiles the
model and calls `fit` on the tensors it was given, with batch size 32 and 70
epochs. -/
theorem convertToTensor_empty (ar : Arith) (be : Backend) (rnd : RandomSource)
    (model : Sequential) :
    convertToTensor ar be rnd []
      = ([], { inputs := [], labels := [], inputMax := be.emptyMax, inputMin := be.emptyMin,
               labelMax := be.emptyMax, labelMin := be.emptyMin })
    ∧ trainModel model (convertToTensor ar be rnd []).2.inputs
        (convertToTensor ar be rnd []).2.labels
      = { model := model, optimizer := Optimizer.adam, loss := Loss.meanSquaredError,
          metrics := ["mse"],
          x := [], y := [], args := { batchSize := 32, epochs := 70, shuffle := true } } :=
  ⟨rfl, rfl⟩

/-- C4 fails as stated: on the empty dataset `convertToTensor` returns an object
whose tensors are empty, and `trainModel` passes them to `fit`. -/
theorem convertToTensor_empty_returns :
    (convertToTensor Arith.ieee neutralBackend firstIndex []).2.inputs = []
    ∧ (convertToTensor Arith.ieee neutralBackend firstIndex []).2.labels = []
    ∧ (trainModel [] [] []).x = [] ∧ (trainModel [] [] []).y = []
    ∧ (trainModel [] [] []).args.epochs = 70 := by
  decide

/-- C5, as the code has it: for a non-empty dataset the bounds returned by
`convertToTensor` are the extrema of the data as stored in `float32`:
`inputMin` and `inputMax` are the stored values of a least and a greatest
horsepower, `labelMin` and `labelMax` those of a least and a greatest mpg, so
`inputMin ≤ inputMax` and `labelMin ≤ labelMax`. For the samples `{100, 20}`
and `{200, 10}` the bounds are 100, 200, 10 and 20, whatever the shuffle
does. -/
theorem convertToTensor_bounds (be : Backend) (rnd : RandomSource) (data : List Sample)
    (h : data ≠ []) :
    (∃ lo ∈ data, ∃ hi ∈ data,
      (∀ s ∈ data, lo.horsepower ≤ s.horsepower ∧ s.horsepower ≤ hi.horsepower)
      ∧ (convertToTensor Arith.ieee be rnd data).2.inputMin = Arith.ieee.store lo.horsepower
      ∧ (convertToTensor Arith.ieee be rnd data).2.inputMax = Arith.ieee.store hi.horsepower
      ∧ (convertToTensor Arith.ieee be rnd data).2.inputMin.le
          (convertToTensor Arith.ieee be rnd data).2.inputMax)
    ∧ (∃ lo ∈ data, ∃ hi ∈ data,
      (∀ s ∈ data, lo.mpg ≤ s.mpg ∧ s.mpg ≤ hi.mpg)
      ∧ (convertToTensor Arith.ieee be rnd data).2.labelMin = Arith.ieee.store lo.mpg
      ∧ (convertToTensor Arith.ieee be rnd data).2.labelMax = Arith.ieee.store hi.mpg
      ∧ (convertToTensor Arith.ieee be rnd data).2.labelMin.le
          (convertToTensor Arith.ieee be rnd data).2.labelMax)
    ∧ (∀ (be' : Backend) (rnd' : RandomSource),
      (convertToTensor Arith.ieee be' rnd' scenarioData).2.inputMin = TVal.num 100
      ∧ (convertToTensor Arith.ieee be' rnd' scenarioData).2.inputMax = TVal.num 200
      ∧ (convertToTensor Arith.ieee be' rnd' scenarioData).2.labelMin = TVal.num 10
      ∧ (convertToTensor Arith.ieee be' rnd' scenarioData).2.labelMax = TVal.num 20) := by
  refine ⟨?_, ?_, ?_⟩
  · obtain ⟨lo, hlo, hi, hhi, hall, e1, e2⟩ := (bounds_of_nonempty ieee_lawful be rnd data h).1
    refine ⟨lo, hlo, hi, hhi, hall, e1, e2, ?_⟩
    rw [e1, e2]
    exact ieee_lawful.store_mono _ _ (hall hi hhi).1
  · obtain ⟨lo, hlo, hi, hhi, hall, e1, e2⟩ := (bounds_of_nonempty ieee_lawful be rnd data h).2
    refine ⟨lo, hlo, hi, hhi, hall, e1, e2, ?_⟩
    rw [e1, e2]
    exact ieee_lawful.store_mono _ _ (hall hi hhi).1
  · intro be' rnd'
    have hs : scenarioData ≠ [] := by simp [scenarioData]
    obtain ⟨⟨lo, hlo, hi, hhi, hall, e1, e2⟩, ⟨lo', hlo', hi', hhi', hall', e3, e4⟩⟩ :=
      bounds_of_nonempty ieee_lawful be' rnd' scenarioData hs
    have s100 : Arith.ieee.store 100 = TVal.num 100 := by decide!
    have s200 : Arith.ieee.store 200 = TVal.num 200 := by decide!
    have s10 : Arith.ieee.store 10 = TVal.num 10 := by decide!
    have s20 : Arith.ieee.store 20 = TVal.num 20 := by decide!
    simp only [scenarioData, List.mem_cons, List.mem_singleton, List.not_mem_nil, or_false,
      forall_eq_or_imp, forall_eq] at hlo hhi hall hlo' hhi' hall'
    have a1 : lo.horsepower = 100 := by
      rcases hlo with rfl | rfl
      · rfl
      · exact absurd hall.1.1 (by norm_num)
    have a2 : hi.horsepower = 200 := by
      rcases hhi with rfl | rfl
      · exact absurd hall.2.2 (by norm_num)
      · rfl
    have a3 : lo'.mpg = 10 := by
      rcases hlo' with rfl | rfl
      · exact absurd hall'.2.1 (by norm_num)
      · rfl
    have a4 : hi'.mpg = 20 := by
      rcases hhi' with rfl | rfl
      · rfl
      · exact absurd hall'.1.2 (by norm_num)
    rw [e1, e2, e3, e4, a1, a2, a3, a4]
    exact ⟨s100, s200, s10, s20⟩

theorem convertToTensor_bounds_witness :
    scenarioData ≠ [] ∧
    (convertToTensor Arith.ieee neutralBackend firstIndex scenarioData).2.inputMin
      = TVal.num 100
    ∧ (convertToTensor Arith.ieee neutralBackend firstIndex scenarioData).2.inputMax
      = TVal.num 200
    ∧ (convertToTensor Arith.ieee neutralBackend firstIndex scenarioData).2.labelMin
      = TVal.num 10
    ∧ (convertToTensor Arith.ieee neutralBackend firstIndex scenarioData).2.labelMax
      = TVal.num 20 :=
  ⟨by simp [scenarioData],
    (convertToTensor_bounds neutralBackend firstIndex scenarioData
      (by simp [scenarioData])).2.2 neutralBackend firstIndex⟩

/-- C5 fails as stated: for the single sample of horsepower 16777217 the
returned `inputMax` is 16777216, which is the horsepower of no sample, and for
horsepower `2^130` it is `+Infinity`. -/
theorem convertToTensor_bounds_rounded :
    (convertToTensor Arith.ieee neutralBackend firstIndex
        [{ mpg := 20, horsepower := 16777217 }]).2.inputMax = TVal.num 16777216
    ∧ (∀ s ∈ [({ mpg := 20, horsepower := 16777217 } : Sample)],
        TVal.num s.horsepower ≠ TVal.num 16777216)
    ∧ (convertToTensor Arith.ieee neutralBackend firstIndex
        [{ mpg := 20, horsepower := 2 ^ 130 }]).2.inputMax = TVal.posInf := by
  decide!

/-- C6, as the code has it: when the horsepower values as stored in `float32`
are not all equal and the range `inputMax − inputMin` is finite in `float32`,
and likewise for mpg, every entry of the normalised inputs and of the normalised
labels is a number in `[0, 1]`. -/
theorem normalised_in_unit (be : Backend) (rnd : RandomSource) (data : List Sample)
    (hi : ∃ a ∈ data, ∃ b ∈ data,
      Arith.ieee.store a.horsepower ≠ Arith.ieee.store b.horsepower)
    (hdi : ∃ d : ℚ, (convertToTensor Arith.ieee be rnd data).2.inputMax.sub Arith.ieee.store
      (convertToTensor Arith.ieee be rnd data).2.inputMin = TVal.num d)
    (hl : ∃ a ∈ data, ∃ b ∈ data, Arith.ieee.store a.mpg ≠ Arith.ieee.store b.mpg)
    (hdl : ∃ d : ℚ, (convertToTensor Arith.ieee be rnd data).2.labelMax.sub Arith.ieee.store
      (convertToTensor Arith.ieee be rnd data).2.labelMin = TVal.num d) :
    (∀ t ∈ (convertToTensor Arith.ieee be rnd data).2.inputs, t.inUnit)
    ∧ (∀ t ∈ (convertToTensor Arith.ieee be rnd data).2.labels, t.inUnit) := by
  have hp := shuffle_perm_aux rnd data
  obtain ⟨a, ha, b, hb, hab⟩ := hi
  obtain ⟨c, hc, d, hd, hcd⟩ := hl
  constructor
  · rw [convertToTensor_inputs]
    exact column_normalised_unit ieee_lawful be _
      ⟨a.horsepower, List.mem_map.mpr ⟨a, hp.mem_iff.mpr ha, rfl⟩,
        b.horsepower, List.mem_map.mpr ⟨b, hp.mem_iff.mpr hb, rfl⟩, hab⟩ hdi
  · rw [convertToTensor_labels]
    exact column_normalised_unit ieee_lawful be _
      ⟨c.mpg, List.mem_map.mpr ⟨c, hp.mem_iff.mpr hc, rfl⟩,
        d.mpg, List.mem_map.mpr ⟨d, hp.mem_iff.mpr hd, rfl⟩, hcd⟩ hdl

theorem normalised_in_unit_witness :
    (∃ a ∈ scenarioData, ∃ b ∈ scenarioData,
      Arith.ieee.store a.horsepower ≠ Arith.ieee.store b.horsepower)
    ∧ (∃ a ∈ scenarioData, ∃ b ∈ scenarioData, Arith.ieee.store a.mpg ≠ Arith.ieee.store b.mpg)
    ∧ (∀ t ∈ (convertToTensor Arith.ieee neutralBackend firstIndex scenarioData).2.inputs,
        t.inUnit)
    ∧ (∀ t ∈ (convertToTensor Arith.ieee neutralBackend firstIndex scenarioData).2.labels,
        t.inUnit) := by
  have h1 : ∃ a ∈ scenarioData, ∃ b ∈ scenarioData,
      Arith.ieee.store a.horsepower ≠ Arith.ieee.store b.horsepower :=
    ⟨{ mpg := 20, horsepower := 100 }, by simp [scenarioData],
      { mpg := 10, horsepower := 200 }, by simp [scenarioData], by decide!⟩
  have h2 : ∃ a ∈ scenarioData, ∃ b ∈ scenarioData,
      Arith.ieee.store a.mpg ≠ Arith.ieee.store b.mpg :=
    ⟨{ mpg := 20, horsepower := 100 }, by simp [scenarioData],
      { mpg := 10, horsepower := 200 }, by simp [scenarioData], by decide!⟩
  have h3 : (convertToTensor Arith.ieee neutralBackend firstIndex scenarioData).2.inputMax.sub
      Arith.ieee.store (convertToTensor Arith.ieee neutralBackend firstIndex scenarioData).2.inputMin
      = TVal.num 100 := by decide!
  have h4 : (convertToTensor Arith.ieee neutralBackend firstIndex scenarioData).2.labelMax.sub
      Arith.ieee.store (convertToTensor Arith.ieee neutralBackend firstIndex scenarioData).2.labelMin
      = TVal.num 10 := by decide!
  exact ⟨h1, h2, normalised_in_unit neutralBackend firstIndex scenarioData h1 ⟨100, h3⟩ h2
    ⟨10, h4⟩⟩

/-- C6 fails as stated: the horsepower values `100` and `100 + 2^-20` are not
equal and the mpg values are not equal, yet both horsepower values are stored as
the `float32` number 100 and the normalised inputs are `[NaN, NaN]`. -/
theorem normalised_not_in_unit :
    (100 : ℚ) ≠ 100 + 1 / 2 ^ 20
    ∧ (20 : ℚ) ≠ 10
    ∧ (convertToTensor Arith.ieee neutralBackend firstIndex
        [{ mpg := 20, horsepower := 100 }, { mpg := 10, horsepower := 100 + 1 / 2 ^ 20 }]).2.inputs
      = [TVal.nan, TVal.nan] := by
  decide!

/-- C7, as the code has it: for every model and all bounds that are numbers
with `inputMin < inputMax`, `inputMin` a `float32` value and the range
`inputMax − inputMin` finite in `float32`, `testModel` builds exactly 100
predicted points; their `x` values are the entries `n` of the `float32` grid of
`tf.linspace(0, 1, 100)` scaled by the range and shifted by `inputMin`, each
product and sum a `float32`; they never decrease, and the first equals
`inputMin`. The grid itself increases strictly from `0` to
`1.0000007152557373`. -/
theorem testModel_points (model : Sequential) (inputData : List Sample) (nd : TensorData)
    (iMin iMax d : ℚ) (hmin : nd.inputMin = TVal.num iMin) (hmax : nd.inputMax = TVal.num iMax)
    (h : iMin < iMax) (hrep : Arith.ieee.store iMin = TVal.num iMin)
    (hd : Arith.ieee.store (iMax - iMin) = TVal.num d) :
    (testModel Arith.ieee model inputData nd).predictedPoints.length = 100
    ∧ (testModel Arith.ieee model inputData nd).predictedPoints.map (fun p => p.x)
        = (linspace Arith.ieee 0 1 100).map (fun n =>
            (n.mul Arith.ieee.store (TVal.num d)).add Arith.ieee.store (TVal.num iMin))
    ∧ List.Pairwise TVal.le
        ((testModel Arith.ieee model inputData nd).predictedPoints.map (fun p => p.x))
    ∧ ((testModel Arith.ieee model inputData nd).predictedPoints.map (fun p => p.x)).head?
        = some (TVal.num iMin)
    ∧ List.Pairwise TVal.lt (linspace Arith.ieee 0 1 100)
    ∧ (linspace Arith.ieee 0 1 100).head? = some (TVal.num 0)
    ∧ (linspace Arith.ieee 0 1 100).getLast? = some (TVal.num (4194307 / 4194304)) := by
  have hxs : (testModel Arith.ieee model inputData nd).predictedPoints.map (fun p => p.x)
      = (linspace Arith.ieee 0 1 100).map (fun n =>
          (n.mul Arith.ieee.store (TVal.num d)).add Arith.ieee.store (TVal.num iMin)) := by
    rw [predicted_xs, hmin, hmax, TVal.sub_num_num, hd]
  obtain ⟨ghead, -, grange, -, glast⟩ := linspace_ieee_eval
  have gsorted : List.Pairwise TVal.le (linspace Arith.ieee 0 1 100) :=
    linspace_ieee_increasing.imp TVal.le_of_lt
  have hd0 : 0 ≤ d := by
    have := ieee_lawful.store_mono 0 (iMax - iMin) (by linarith)
    rw [ieee_lawful.store_zero, hd] at this
    exact this
  refine ⟨predictedPoints_length _ _ _ _, hxs, ?_, ?_, linspace_ieee_increasing, ghead,
    glast⟩
  · rw [hxs]
    apply List.pairwise_map.mpr
    refine gsorted.imp_of_mem ?_
    intro a b ha hb hab
    obtain ⟨x, rfl, -, -⟩ := TVal.num_of_between (grange a ha).1 (grange a ha).2
    obtain ⟨y, rfl, -, -⟩ := TVal.num_of_between (grange b hb).1 (grange b hb).2
    exact unNormalise_mono ieee_lawful iMin hd0 hab
  · rw [hxs, List.head?_map, ghead]
    have e : ((TVal.num 0).mul Arith.ieee.store (TVal.num d)).add Arith.ieee.store
        (TVal.num iMin) = TVal.num iMin := by
      show TVal.add Arith.ieee.store (Arith.ieee.store (0 * d)) (TVal.num iMin) = TVal.num iMin
      rw [zero_mul, ieee_lawful.store_zero]
      show Arith.ieee.store (0 + iMin) = TVal.num iMin
      rw [zero_add, hrep]
    simp [e]

set_option maxRecDepth 100000 in
theorem testModel_points_witness :
    (100 : ℚ) < 200
    ∧ (testModel Arith.ieee unitModel scenarioData
        (boundsOnly 100 200 10 20)).predictedPoints.length = 100
    ∧ List.Pairwise TVal.le
        ((testModel Arith.ieee unitModel scenarioData
          (boundsOnly 100 200 10 20)).predictedPoints.map (fun p => p.x))
    ∧ ((testModel Arith.ieee unitModel scenarioData
          (boundsOnly 100 200 10 20)).predictedPoints.map (fun p => p.x)).head?
        = some (TVal.num 100) := by
  have key := testModel_points unitModel scenarioData (boundsOnly 100 200 10 20)
    100 200 100 rfl rfl (by norm_num) (by decide!) (by decide!)
  exact ⟨by norm_num, key.1, key.2.2.1, key.2.2.2.1⟩

set_option maxRecDepth 100000 in
/-- C7 fails as stated: with bounds 100 and 200 the second `x` is
`101.01010131835938`, not `100 + 100/99`, and the last `x` is
`200.00006103515625`, not `inputMax`; with bounds 10000000 and 10000001 the
first two `x` are equal, so the `x` values are not strictly increasing. -/
theorem testModel_points_rounded :
    ((testModel Arith.ieee unitModel [] (boundsOnly 100 200 10 20)).predictedPoints.map
        (fun p => p.x))[1]? = some (TVal.num (3309899 / 32768))
    ∧ (3309899 / 32768 : ℚ) ≠ 100 + (1 / 99) * (200 - 100)
    ∧ ((testModel Arith.ieee unitModel [] (boundsOnly 100 200 10 20)).predictedPoints.map
        (fun p => p.x)).getLast? = some (TVal.num (3276801 / 16384))
    ∧ (3276801 / 16384 : ℚ) ≠ 200
    ∧ ((testModel Arith.ieee unitModel [] (boundsOnly 10000000 10000001 10 20)).predictedPoints.map
        (fun p => p.x)).take 2 = [TVal.num 10000000, TVal.num 10000000] := by
  decide!

/-- C8: whatever the random source draws, the shuffle at the start of
`convertToTensor` leaves a dataset of the same length that is a permutation of
the one it was given. -/
theorem convertToTensor_shuffle_perm (ar : Arith) (be : Backend) (rnd : RandomSource)
    (data : List Sample) :
    (convertToTensor ar be rnd data).1 = shuffle rnd data
    ∧ (shuffle rnd data).Perm data
    ∧ (shuffle rnd data).length = data.length :=
  ⟨rfl, shuffle_perm_aux rnd data, (shuffle_perm_aux rnd data).length_eq⟩

/-- C9, as the code has it: besides the shuffle in `convertToTensor`,
`trainModel` asks `fit` for batch size 32, 70 epochs and `shuffle: true`. So the
rows are shuffled again before every one of the 70 epochs: the order of the
first epoch is a shuffle of the order produced by `convertToTensor`, the order
of every later epoch a shuffle of the order of the epoch before, and the
batches of an epoch are the contiguous slices of 32 rows (the last possibly
shorter) of that epoch's order, which is a permutation of the rows. -/
theorem fit_batches_reshuffled (model : Sequential) (inputs labels : Tensor)
    (rnd : Nat → RandomSource) :
    (trainModel model inputs labels).args = { batchSize := 32, epochs := 70, shuffle := true }
    ∧ fitBatches (trainModel model inputs labels) rnd
        = (List.range 70).map
            (fun e => contiguousBatches 32 (reshuffledOrder rnd inputs.length e))
    ∧ reshuffledOrder rnd inputs.length 0 = shuffle (rnd 0) (List.range inputs.length)
    ∧ ∀ e : Nat,
        reshuffledOrder rnd inputs.length (e + 1)
          = shuffle (rnd (e + 1)) (reshuffledOrder rnd inputs.length e)
        ∧ (reshuffledOrder rnd inputs.length e).Perm (List.range inputs.length)
        ∧ (contiguousBatches 32 (reshuffledOrder rnd inputs.length e)).flatten
            = reshuffledOrder rnd inputs.length e
        ∧ (∀ b ∈ contiguousBatches 32 (reshuffledOrder rnd inputs.length e), b.length ≤ 32)
        ∧ (∀ b ∈ (contiguousBatches 32 (reshuffledOrder rnd inputs.length e)).dropLast,
            b.length = 32) := by
  refine ⟨rfl, ?_, rfl, ?_⟩
  · apply List.ext_getElem?
    intro i
    simp only [fitBatches, trainModel, List.getElem?_map]
    by_cases hi : i < 70
    · rw [epochOrdersFrom_getElem rnd 70 0 _ i hi, List.getElem?_range hi,
        ← reshuffledOrder_eq]
      rfl
    · have h1 : (epochOrdersFrom true rnd 70 0 (List.range inputs.length)).length ≤ i := by
        rw [epochOrdersFrom_length]
        omega
      have h2 : (List.range 70).length ≤ i := by
        rw [List.length_range]
        omega
      rw [List.getElem?_eq_none h1, List.getElem?_eq_none h2]
      rfl
  · intro e
    exact ⟨rfl, reshuffledOrder_perm rnd _ e,
      batchesAux_flatten 32 (by decide) _ _ (Nat.le_refl _),
      batchesAux_length_le 32 _ _, batchesAux_full 32 _ _⟩

set_option maxRecDepth 100000 in
/-- C9 fails as stated: `trainModel` passes `shuffle: true`, and with 33 rows
and a random source that always draws index 0 the batches of the first epoch
are rows `1..32` and row `0`, not the slices `0..31` and `32` of the order
produced by `convertToTensor`. -/
theorem fit_reshuffles_each_epoch :
    (trainModel [] (List.replicate 33 (TVal.num 0))
      (List.replicate 33 (TVal.num 0))).args.shuffle = true
    ∧ contiguousBatches 32 (List.range 33) = [List.range 32, [32]]
    ∧ (fitBatches (trainModel [] (List.replicate 33 (TVal.num 0))
        (List.replicate 33 (TVal.num 0))) (fun _ => firstIndex)).head?
      = some [List.range' 1 32, [0]] := by
  decide

/-- C10, as the code has it: `createModel` stacks two dense layers with one
input, one unit, a bias and no activation, and the forward evaluation is
`((x*W1 + b1)*W2 + b2)` with every product and sum a `float32`. In exact
arithmetic this is `W2*(W1*x + b1) + b2 = (W2*W1)*x + (W2*b1 + b2)`, and the 100
predicted points of `testModel` then lie on one straight line `A*x + B*y = C`
(with `A`, `B` not both zero) in original units; `testModel` builds 100 points
in either arithmetic. -/
theorem createModel_affine (p : Params) (t : TVal) (W1 b1 W2 b2 x : ℚ) :
    createModel p = [{ kernel := p.W1, bias := p.b1 }, { kernel := p.W2, bias := p.b2 }]
    ∧ (∀ ar : Arith, (createModel p).forward ar t
        = (((t.mul ar.store p.W1).add ar.store p.b1).mul ar.store p.W2).add ar.store p.b2)
    ∧ (createModel { W1 := TVal.num W1, b1 := TVal.num b1, W2 := TVal.num W2,
                     b2 := TVal.num b2 }).forward Arith.exact (TVal.num x)
        = TVal.num (W2 * (W1 * x + b1) + b2)
    ∧ W2 * (W1 * x + b1) + b2 = (W2 * W1) * x + (W2 * b1 + b2)
    ∧ ∀ (inputData : List Sample) (iMin iMax lMin lMax : ℚ),
        (testModel Arith.ieee
            (createModel { W1 := TVal.num W1, b1 := TVal.num b1, W2 := TVal.num W2,
                           b2 := TVal.num b2 })
            inputData (boundsOnly iMin iMax lMin lMax)).predictedPoints.length = 100
        ∧ (testModel Arith.exact
            (createModel { W1 := TVal.num W1, b1 := TVal.num b1, W2 := TVal.num W2,
                           b2 := TVal.num b2 })
            inputData (boundsOnly iMin iMax lMin lMax)).predictedPoints.length = 100
        ∧ ∃ A B C : ℚ, (A ≠ 0 ∨ B ≠ 0) ∧
          ∀ q ∈ (testModel Arith.exact
              (createModel { W1 := TVal.num W1, b1 := TVal.num b1, W2 := TVal.num W2,
                             b2 := TVal.num b2 })
              inputData (boundsOnly iMin iMax lMin lMax)).predictedPoints,
            ∃ px py : ℚ, q.x = TVal.num px ∧ q.y = TVal.num py ∧ A * px + B * py = C := by
  refine ⟨rfl, fun _ => rfl, createModel_forward_exact W1 b1 W2 b2 x, by ring, ?_⟩
  intro inputData iMin iMax lMin lMax
  have hpts : ∀ q ∈ (testModel Arith.exact
              (createModel { W1 := TVal.num W1, b1 := TVal.num b1, W2 := TVal.num W2,
                             b2 := TVal.num b2 })
              inputData (boundsOnly iMin iMax lMin lMax)).predictedPoints,
      ∃ s : ℚ, q.x = TVal.num (s * (iMax - iMin) + iMin)
        ∧ q.y = TVal.num ((W2 * (W1 * s + b1) + b2) * (lMax - lMin) + lMin) := by
    intro q hq
    rw [predictedPoints_eq, linspace_exact_unit] at hq
    simp only [List.map_map, List.mem_map, Function.comp] at hq
    obtain ⟨i, -, rfl⟩ := hq
    refine ⟨(i : ℚ) / 99, ?_, ?_⟩
    · simp [boundsOnly, Arith.exact]
    · rw [createModel_forward_exact]
      simp [boundsOnly, Arith.exact]
  refine ⟨predictedPoints_length _ _ _ _, predictedPoints_length _ _ _ _, ?_⟩
  by_cases hx : iMax - iMin = 0
  · by_cases hy : W2 * W1 * (lMax - lMin) = 0
    · refine ⟨1, 0, iMin, Or.inl one_ne_zero, ?_⟩
      intro q hq
      obtain ⟨s, h1, h2⟩ := hpts q hq
      exact ⟨_, _, h1, h2, by rw [hx]; ring⟩
    · refine ⟨W2 * W1 * (lMax - lMin), 0, W2 * W1 * (lMax - lMin) * iMin, Or.inl hy, ?_⟩
      intro q hq
      obtain ⟨s, h1, h2⟩ := hpts q hq
      exact ⟨_, _, h1, h2, by rw [hx]; ring⟩
  · refine ⟨W2 * W1 * (lMax - lMin), -(iMax - iMin),
      W2 * W1 * (lMax - lMin) * iMin
        - (iMax - iMin) * ((W2 * b1 + b2) * (lMax - lMin) + lMin),
      Or.inr (neg_ne_zero.mpr hx), ?_⟩
    intro q hq
    obtain ⟨s, h1, h2⟩ := hpts q hq
    exact ⟨_, _, h1, h2, by ring⟩

set_option maxRecDepth 100000 in
/-- The first three predicted points of the program for the model with weights
`2` and `3`, biases `1` and `-1`, and all four bounds `-50` and `50`. -/
theorem curve_first_points :
    (testModel Arith.ieee curveModel [] (boundsOnly (-50) 50 (-50) 50)).predictedPoints.take 3
      = [{ x := TVal.num (-50), y := TVal.num 150 },
         { x := TVal.num (-1605301 / 32768), y := TVal.num (2556897 / 16384) },
         { x := TVal.num (-786101 / 16384), y := TVal.num (10624777 / 65536) }] := by
  decide!

/-- C10 fails as stated: for weights `1`, `1` and biases `0`, `1` the forward
value of the program at `2^-30` is `1`, not `1 + 2^-30`; and for weights `2`,
`3` and biases `1`, `-1` the predicted points of `testModel` lie on no straight
line. -/
theorem createModel_not_affine :
    (createModel { W1 := TVal.num 1, b1 := TVal.num 0, W2 := TVal.num 1,
                   b2 := TVal.num 1 }).forward Arith.ieee (TVal.num (1 / 2 ^ 30))
      = TVal.num 1
    ∧ (1 : ℚ) ≠ 1 * (1 * (1 / 2 ^ 30) + 0) + 1
    ∧ ¬ ∃ A B C : ℚ, (A ≠ 0 ∨ B ≠ 0) ∧
        ∀ q ∈ (testModel Arith.ieee curveModel []
            (boundsOnly (-50) 50 (-50) 50)).predictedPoints,
          ∃ px py : ℚ, q.x = TVal.num px ∧ q.y = TVal.num py ∧ A * px + B * py = C := by
  refine ⟨by decide!, by norm_num, ?_⟩
  rintro ⟨A, B, C, hAB, hline⟩
  have hmem : ∀ q ∈ (testModel Arith.ieee curveModel []
      (boundsOnly (-50) 50 (-50) 50)).predictedPoints.take 3,
      ∃ px py : ℚ, q.x = TVal.num px ∧ q.y = TVal.num py ∧ A * px + B * py = C :=
    fun q hq => hline q (List.mem_of_mem_take hq)
  rw [curve_first_points] at hmem
  obtain ⟨x1, y1, ex1, ey1, l1⟩ := hmem _ (List.mem_cons_self _ _)
  obtain ⟨x2, y2, ex2, ey2, l2⟩ :=
    hmem _ (List.mem_cons_of_mem _ (List.mem_cons_self _ _))
  obtain ⟨x3, y3, ex3, ey3, l3⟩ :=
    hmem _ (List.mem_cons_of_mem _ (List.mem_cons_of_mem _ (List.mem_cons_self _ _)))
  injection ex1 with ex1
  injection ey1 with ey1
  injection ex2 with ex2
  injection ey2 with ey2
  injection ex3 with ex3
  injection ey3 with ey3
  subst ex1 ey1 ex2 ey2 ex3 ey3
  have hA : A = 0 := by linarith
  have hB : B = 0 := by linarith
  rcases hAB with h | h
  · exact h hA
  · exact h hB

end TensorFlow2D
